import Mathlib

/-!
Verification of the SimpleTextReader build tools against their specification.

The Python sources are embedded shallowly: strings are `List Char`, each
regular expression used by the code becomes a dedicated scanning function
with Python `re` semantics (leftmost match, greedy character classes,
non-overlapping substitution), Python dicts become insertion-ordered
association lists, and fallible code returns `Except`.
-/

namespace STR

/-! ## Characters -/

/-- The double-quote character. -/
def qc : Char := Char.ofNat 34

/-- The single-quote character. -/
def apos : Char := Char.ofNat 39

/-- Opening curly brace. -/
def braceO : Char := Char.ofNat 123

/-- Closing curly brace. -/
def braceC : Char := Char.ofNat 125

/-- Backslash character. -/
def bslash : Char := Char.ofNat 92

/-- Whitespace as tested by Python's `\s` and `str.strip()` (the ASCII set
plus the common Unicode whitespace appearing in this code base). -/
def isPySpace (c : Char) : Bool :=
  c == ' ' || c == Char.ofNat 9 || c == Char.ofNat 10 || c == Char.ofNat 13 ||
  c == Char.ofNat 11 || c == Char.ofNat 12 || c == Char.ofNat 28 || c == Char.ofNat 29 ||
  c == Char.ofNat 30 || c == Char.ofNat 31 || c == Char.ofNat 133 || c == Char.ofNat 160 ||
  c == Char.ofNat 0x3000

/-! ## Prefix testing and substring occurrence -/

/-- Boolean prefix test on character lists. -/
def isPre : List Char → List Char → Bool
  | [], _ => true
  | _ :: _, [] => false
  | a :: as, b :: bs => a == b && isPre as bs

/-- `pat` occurs in `s` starting at index `p`. -/
def occursAt (pat s : List Char) (p : Nat) : Bool := isPre pat (s.drop p)

/-- Python's substring test `pat in s`. -/
def containsSub (pat : List Char) : List Char → Bool
  | [] => pat.isEmpty
  | s@(_ :: t) => isPre pat s || containsSub pat t

theorem isPre_refl (a : List Char) : isPre a a = true := by
  induction a with
  | nil => rfl
  | cons c t ih => simp [isPre, ih]

theorem isPre_append (a c : List Char) : isPre a (a ++ c) = true := by
  induction a with
  | nil => rfl
  | cons x as ih => simp [isPre, ih]

theorem isPre_of_isPre_append (a b c : List Char) (h : isPre a b = true) :
    isPre a (b ++ c) = true := by
  induction a generalizing b with
  | nil => rfl
  | cons x as ih =>
    cases b with
    | nil => simp [isPre] at h
    | cons y bs =>
      simp only [isPre, Bool.and_eq_true, beq_iff_eq] at h ⊢
      exact ⟨h.1, ih bs (h.2)⟩

theorem isPre_length_le (a b : List Char) (h : isPre a b = true) :
    a.length ≤ b.length := by
  induction a generalizing b with
  | nil => simp
  | cons x as ih =>
    cases b with
    | nil => simp [isPre] at h
    | cons y bs =>
      simp only [isPre, Bool.and_eq_true] at h
      simpa using ih bs h.2

theorem isPre_iff_exists (a b : List Char) :
    isPre a b = true ↔ ∃ r, b = a ++ r := by
  constructor
  · intro h
    induction a generalizing b with
    | nil => exact ⟨b, rfl⟩
    | cons x as ih =>
      cases b with
      | nil => simp [isPre] at h
      | cons y bs =>
        simp only [isPre, Bool.and_eq_true, beq_iff_eq] at h
        obtain ⟨r, hr⟩ := ih bs h.2
        exact ⟨r, by simp [h.1, hr]⟩
  · rintro ⟨r, rfl⟩
    exact isPre_append a r

theorem isPre_of_append_right (a b c : List Char) (h : isPre a (b ++ c) = true)
    (hl : a.length ≤ b.length) : isPre a b = true := by
  induction a generalizing b with
  | nil => rfl
  | cons x as ih =>
    cases b with
    | nil => simp at hl
    | cons y bs =>
      simp only [List.cons_append, isPre, Bool.and_eq_true] at h ⊢
      exact ⟨h.1, ih bs h.2 (by simpa using hl)⟩

theorem containsSub_of_occursAt (pat s : List Char) (p : Nat)
    (h : occursAt pat s p = true) : containsSub pat s = true := by
  induction s generalizing p with
  | nil =>
    cases p with
    | zero =>
      unfold occursAt at h
      cases pat with
      | nil => rfl
      | cons c t => simp [isPre] at h
    | succ q =>
      unfold occursAt at h
      cases pat with
      | nil => rfl
      | cons c t => simp [isPre] at h
  | cons c t ih =>
    cases p with
    | zero =>
      unfold occursAt at h
      simp only [List.drop_zero] at h
      simp [containsSub, h]
    | succ q =>
      have := ih q (by simpa [occursAt] using h)
      simp [containsSub, this]

theorem occursAt_length (pat s : List Char) (p : Nat)
    (h : occursAt pat s p = true) : p + pat.length ≤ s.length ∨ s.length < p := by
  by_cases hp : p ≤ s.length
  · left
    have := isPre_length_le pat (s.drop p) h
    simp [List.length_drop] at this
    omega
  · right; omega

/-- Occurrences lying inside a prefix `ext` of `s` are occurrences in `ext`;
hence if `ext` contains no occurrence of `pat`, no position whose window fits
inside `ext` can carry one in `s`. -/
theorem not_occursAt_of_prefix (pat ext s : List Char) (p : Nat)
    (hpre : isPre ext s = true) (hno : containsSub pat ext = false)
    (hfit : p + pat.length ≤ ext.length) : occursAt pat s p = false := by
  by_contra hocc
  rw [Bool.not_eq_false] at hocc
  obtain ⟨r, rfl⟩ := (isPre_iff_exists ext s).1 hpre
  have hdrop : (ext ++ r).drop p = ext.drop p ++ r := by
    exact List.drop_append_of_le_length (by omega)
  unfold occursAt at hocc
  rw [hdrop] at hocc
  have hlen : pat.length ≤ (ext.drop p).length := by
    simp [List.length_drop]; omega
  have : occursAt pat ext p = true := by
    unfold occursAt
    exact isPre_of_append_right _ _ _ hocc hlen
  rw [containsSub_of_occursAt pat ext p this] at hno
  cases hno

theorem containsSub_append_left (pat a b : List Char)
    (h : containsSub pat a = true) : containsSub pat (a ++ b) = true := by
  induction a with
  | nil =>
    cases pat with
    | nil =>
      cases b with
      | nil => rfl
      | cons c t => simp [containsSub, isPre]
    | cons c t => simp [containsSub, List.isEmpty] at h
  | cons c t ih =>
    simp only [containsSub, Bool.or_eq_true] at h
    rcases h with h | h
    · have := isPre_of_isPre_append pat (c :: t) b h
      simp only [List.cons_append] at this
      simp [containsSub, this]
    · simp [containsSub, ih h]

/-! ## Regular-expression matchers

Each regex literal of the Python sources is embedded as a `Matcher`: a
function that, applied to a suffix of the subject, either fails or returns
the length of the (unique, greedy) match anchored at that position together
with the text the Python code extracts from it (group 1 where the pattern
has a group, the whole match otherwise). -/

/-- A matcher anchored at the head of its argument: on success, the total
matched length and the extracted text. -/
abbrev Matcher := List Char → Option (Nat × List Char)

/-- Matcher for a plain literal (used for Python's `str.replace`). An empty
literal never matches (all call sites pass non-empty literals). -/
def litAt (lit : List Char) : Matcher := fun s =>
  if lit.isEmpty then none
  else if isPre lit s then some (lit.length, lit) else none

/-- Matcher for patterns of the form `LIT([^T]+)T` — a literal, a greedy
non-empty run of characters other than the terminator `term`, then the
terminator. This covers `font-family:"([^"]+)"` (with `term = qc`) and
`PROP:([^;]+);` (with `term = ';'`). -/
def litCapTermAt (lit : List Char) (term : Char) : Matcher := fun s =>
  if isPre lit s then
    let rest := s.drop lit.length
    let cap := rest.takeWhile (fun c => c != term)
    if cap.isEmpty then none
    else
      match rest.drop cap.length with
      | c :: _ => if c == term then some (lit.length + cap.length + 1, cap) else none
      | [] => none
  else none

/-- Matcher for `url\("([^"]+\.woff2)"\)`: literal `url("`, then a greedy
non-empty run of non-quote characters that must end in `.woff2`, then `")`.
Backtracking cannot shorten the run (a shorter group would be followed by a
non-quote character), so the group is exactly the maximal run. -/
def urlWoff2At : Matcher := fun s =>
  if isPre ("url(\x22".toList) s then
    let rest := s.drop 5
    let cap := rest.takeWhile (fun c => c != qc)
    if cap.isEmpty then none
    else if isPre (".woff2".toList.reverse) cap.reverse && decide (7 ≤ cap.length) then
      if isPre ("\x22)".toList) (rest.drop cap.length) then
        some (5 + cap.length + 2, cap)
      else none
    else none
  else none

/-- Matcher for `url\(["\']\./` from `fetch_css`: `url(`, a double or single
quote, then `./`. -/
def relUrlAt : Matcher := fun s =>
  if isPre ("url(\x22./".toList) s || isPre ("url(\x27./".toList) s then
    some (7, s.take 7)
  else none

/-- Matcher for `@font-face\s*{.*?}` under `re.DOTALL`: the literal
`@font-face`, a maximal run of whitespace, `{`, then (non-greedily)
everything up to the first `}`. -/
def fontFaceBlockAt : Matcher := fun s =>
  if isPre ("@font-face".toList) s then
    let rest := s.drop 10
    let ws := rest.takeWhile isPySpace
    match rest.drop ws.length with
    | c :: r2 =>
      if c == braceO then
        let inner := r2.takeWhile (fun d => d != braceC)
        match r2.drop inner.length with
        | d :: _ =>
          if d == braceC then
            let len := 10 + ws.length + 1 + inner.length + 1
            some (len, s.take len)
          else none
        | [] => none
      else none
    | [] => none
  else none

/-! ## Scanning: `re.search`, `re.sub`, `re.findall`, `str.replace` -/

/-- Leftmost match: position, length and extracted text (Python `re.search`). -/
def scanFirst (M : Matcher) : List Char → Option (Nat × Nat × List Char)
  | [] => (M []).map (fun r => (0, r.1, r.2))
  | c :: t =>
    match M (c :: t) with
    | some (len, cap) => some (0, len, cap)
    | none => (scanFirst M t).map (fun r => (r.1 + 1, r.2))

/-- Fueled worker for `re.sub`: replace every non-overlapping leftmost match
by `repl`, continuing after the end of each match. All matchers here match
at least one character, so fuel `s.length` suffices. -/
def subAllF (M : Matcher) (repl : List Char) : Nat → List Char → List Char
  | _, [] => []
  | 0, s => s
  | f + 1, c :: t =>
    match M (c :: t) with
    | some (len, _) => repl ++ subAllF M repl f (t.drop (len - 1))
    | none => c :: subAllF M repl f t

/-- Python `re.sub(pattern, repl, s)` for the matchers of this development. -/
def subAll (M : Matcher) (repl : List Char) (s : List Char) : List Char :=
  subAllF M repl s.length s

/-- Fueled worker for `re.findall`. -/
def scanAllF (M : Matcher) : Nat → List Char → List (List Char)
  | _, [] => []
  | 0, _ => []
  | f + 1, c :: t =>
    match M (c :: t) with
    | some (len, cap) => cap :: scanAllF M f (t.drop (len - 1))
    | none => scanAllF M f t

/-- Python `re.findall(pattern, s)` for the matchers of this development. -/
def scanAll (M : Matcher) (s : List Char) : List (List Char) :=
  scanAllF M s.length s

/-- Python `s.replace(old, new)` (all occurrences, left to right,
non-overlapping); the call sites of this development pass non-empty `old`. -/
def pyReplace (old new s : List Char) : List Char := subAll (litAt old) new s

/-- Python `s.strip()`. -/
def pyStrip (v : List Char) : List Char :=
  ((v.dropWhile isPySpace).reverse.dropWhile isPySpace).reverse

/-! ## Model of `build-tools/splitfont_css2manifest.py`

`fetch_css` is split into its I/O (out of scope) and its pure parts: the
computation of `abs_prefix` and the rewrite of relative asset URLs.
`css2manifest` is modelled on the fetched stylesheet text; font-face
records become insertion-ordered association lists mirroring the Python
dict, and the `Path.relative_to` failure (`ValueError`) makes the result
an `Except`. -/

/-- Remote branch of `fetch_css`: `abs_prefix = css_url.replace('result.css', '')`. -/
def abs_prefix_remote (css_url : List Char) : List Char :=
  pyReplace ("result.css".toList) [] css_url

/-- `PurePosixPath` components of a relative path: split on `/`, dropping
empty and `.` segments (pathlib normalises both away). -/
def posixParts (p : List Char) : List (List Char) :=
  (p.splitOn '/').filter (fun seg => ¬ (seg = [] ∨ seg = ".".toList))

/-- Render `str(PurePosixPath(parts))`; the empty path prints as `.`. -/
def joinSlash : List (List Char) → List Char
  | [] => ".".toList
  | [a] => a
  | a :: r => a ++ '/' :: joinSlash r

/-- Prefix test on path-component lists. -/
def partsPre : List (List Char) → List (List Char) → Bool
  | [], _ => true
  | _ :: _, [] => false
  | a :: as, b :: bs => a == b && partsPre as bs

/-- `PurePosixPath.relative_to`: defined only when `other`'s components are
a prefix of `self`'s (otherwise Python raises `ValueError`). -/
def relative_to_parts (self other : List (List Char)) : Option (List (List Char)) :=
  if partsPre other self then some (self.drop other.length) else none

/-- Local branch of `fetch_css`: `abs_prefix = ('./' + str(rel_dir) + '/').replace('\\', '/')`
where `rel_dir` is the stylesheet's directory relative to the project root. -/
def abs_prefix_local (relDirParts : List (List Char)) : List Char :=
  pyReplace [bslash] ['/'] ("./".toList ++ joinSlash relDirParts ++ "/".toList)

/-- The rewrite performed by `fetch_css` on the fetched text:
`re.sub(r'url\(["\']\./', f'url("{abs_prefix}', css_text)`. -/
def fetch_rewrite (pre css_text : List Char) : List Char :=
  subAll relUrlAt ("url(\x22".toList ++ pre) css_text

/-- `fetch_css` for a remote stylesheet, given the body returned by the GET. -/
def fetch_css_remote (css_url raw : List Char) : List Char :=
  fetch_rewrite (abs_prefix_remote css_url) raw

/-- `re.search(PROP + ':([^;]+);', block)`, returning group 1. -/
def searchVal (prop : String) (b : List Char) : Option (List Char) :=
  (scanFirst (litCapTermAt (prop.toList ++ [':']) ';') b).map (fun r => r.2.2)

/-- `re.search(r'font-family:"([^"]+)"', block)`, returning group 1. -/
def searchFamily (b : List Char) : Option (List Char) :=
  (scanFirst (litCapTermAt ("font-family:".toList ++ [qc]) qc) b).map (fun r => r.2.2)

/-- `re.search(r'url\("([^"]+\.woff2)"\)', block)`, returning group 1. -/
def searchUrl (b : List Char) : Option (List Char) :=
  (scanFirst urlWoff2At b).map (fun r => r.2.2)

/-- Parsing of one `@font-face` block into a manifest record (the loop body
of `css2manifest`, lines 57–90). The record is the insertion-ordered dict
the Python code builds; note `font_family_rename or ...` and
`if size_adjust:` treat the empty string like `None`. -/
def parse_block (rename size : Option (List Char)) (block : List Char) :
    List (String × List Char) :=
  let famFallback := match searchFamily block with
    | some g => g
    | none => "UnknownFamily".toList
  let famV := match rename with
    | some r => if r.isEmpty then famFallback else r
    | none => famFallback
  let urlV := (searchUrl block).getD []
  let urV := match searchVal "unicode-range" block with
    | some g => pyReplace [' '] [] g
    | none => []
  let wV := match searchVal "font-weight" block with
    | some g => pyStrip g
    | none => "normal".toList
  let stV := match searchVal "font-style" block with
    | some g => pyStrip g
    | none => "normal".toList
  let dV := match searchVal "font-display" block with
    | some g => pyStrip g
    | none => "swap".toList
  let base := [("family", famV), ("url", urlV), ("unicodeRange", urV),
               ("fontWeight", wV), ("fontStyle", stV), ("fontDisplay", dV)]
  let base2 := match size with
    | some sz =>
      if sz.isEmpty then
        match searchVal "size-adjust" block with
        | some g => base ++ [("sizeAdjust", pyStrip g)]
        | none => base
      else base ++ [("sizeAdjust", sz)]
    | none =>
      match searchVal "size-adjust" block with
      | some g => base ++ [("sizeAdjust", pyStrip g)]
      | none => base
  match searchVal "ascent-override" block with
  | some g => base2 ++ [("ascentOverride", pyStrip g)]
  | none => base2

/-- URL patch (lines 96–99): if the extracted url is non-empty and not
absolute, every `url("....woff2")` in the block is replaced by
`url("{Path(url).relative_to('./client/fonts')}")`; `relative_to` raises
when the url is not under `./client/fonts`. -/
def patch_url (url pb : List Char) : Except String (List Char) :=
  if url.isEmpty then .ok pb
  else if isPre ("http://".toList) url || isPre ("https://".toList) url then .ok pb
  else
    match relative_to_parts (posixParts url) (posixParts ("./client/fonts".toList)) with
    | some rel =>
      .ok (subAll urlWoff2At ("url(\x22".toList ++ joinSlash rel ++ [qc, ')']) pb)
    | none => .error "ValueError: path is not relative to ./client/fonts"

/-- Family patch (lines 102–104): `re.sub(r'font-family:"([^"]+)"',
f'font-family:"{rename}"', block)`. -/
def patch_family (rename pb : List Char) : List Char :=
  subAll (litCapTermAt ("font-family:".toList ++ [qc]) qc)
    ("font-family:".toList ++ qc :: rename ++ [qc]) pb

/-- Size-adjust patch (lines 106–113): if the substring `size-adjust:` is
present, substitute every `size-adjust:([^;]+);`; otherwise insert a new
declaration before the closing brace. -/
def patch_size (size pb : List Char) : List Char :=
  if containsSub ("size-adjust:".toList) pb then
    subAll (litCapTermAt ("size-adjust:".toList) ';')
      ("size-adjust:".toList ++ size ++ [';']) pb
  else pb.dropLast ++ "size-adjust:".toList ++ size ++ [';', braceC]

/-- The patching of one block (lines 93–113), in source order:
url, then font-family, then size-adjust. -/
def patch_block (rename size : Option (List Char)) (block : List Char) :
    Except String (List Char) := do
  let entryUrl := (searchUrl block).getD []
  let pb1 ← patch_url entryUrl block
  let pb2 := match rename with
    | some r => if r.isEmpty then pb1 else patch_family r pb1
    | none => pb1
  let pb3 := match size with
    | some sz => if sz.isEmpty then pb2 else patch_size sz pb2
    | none => pb2
  pure pb3

/-- `re.findall(r'@font-face\s*{.*?}', css_text, flags=re.DOTALL)`. -/
def findBlocks (css : List Char) : List (List Char) :=
  scanAll fontFaceBlockAt css

/-- `css2manifest`, modelled on the fetched stylesheet text: returns the
manifest (one record per block) and the patched stylesheet, in which each
original block is string-replaced by its patched form. -/
def css2manifest (css_text : List Char) (rename size : Option (List Char)) :
    Except String (List (List (String × List Char)) × List Char) :=
  (findBlocks css_text).foldlM
    (fun acc block => do
      let entry := parse_block rename size block
      let pb ← patch_block rename size block
      pure (acc.1 ++ [entry], pyReplace block pb acc.2))
    ([], css_text)


/-- Following the spec's words for C5 ("remote sources use the URL's own
directory — the URL with its final path component removed"): everything up
to and including the last `/`. -/
def spec_remote_dir (css_url : List Char) : List Char :=
  (css_url.reverse.dropWhile (fun c => c != '/')).reverse

/-- The fetch rewrite C5 describes for a remote source. -/
def spec_fetch_remote (css_url raw : List Char) : List Char :=
  fetch_rewrite (spec_remote_dir css_url) raw

/-! ## Model of the version store
(`build-tools/build.py` and `build-tools/build_extensions.py`) -/

/-- JSON values as produced by `json.load`; objects keep insertion order
(Python 3.7+ dicts). -/
inductive J where
  | s (v : String)
  | n (v : Int)
  | b (v : Bool)
  | nullJ
  | a (elems : List J)
  | o (fields : List (String × J))

/-- Dictionary lookup (a loaded dict has unique keys; the first binding
wins). -/
def jget (k : String) : List (String × J) → Option J
  | [] => none
  | (k', v) :: r => if k' = k then some v else jget k r

/-- Python `k in d` for a dict. -/
def containsKey (k : String) (d : List (String × J)) : Bool := (jget k d).isSome

/-- Python `d[k] = v`: overwrite the existing binding in place, else append. -/
def pyDictSet (k : String) (v : J) : List (String × J) → List (String × J)
  | [] => [(k, v)]
  | (k', w) :: r => if k' = k then (k', v) :: r else (k', w) :: pyDictSet k v r

/-- Python `str.isdigit` on the character repertoire relevant here: ASCII
digits, the superscript digits (`Numeric_Type=Digit`, e.g. `²` = U+00B2,
which `int()` and `\d` both reject), and the common decimal-digit (Nd)
ranges. -/
def pyIsdigitChar (c : Char) : Bool :=
  (decide ('0' ≤ c) && decide (c ≤ '9')) ||
  c == Char.ofNat 0xB2 || c == Char.ofNat 0xB3 || c == Char.ofNat 0xB9 ||
  c == Char.ofNat 0x2070 ||
  (decide (Char.ofNat 0x2074 ≤ c) && decide (c ≤ Char.ofNat 0x2079)) ||
  (decide (Char.ofNat 0x660 ≤ c) && decide (c ≤ Char.ofNat 0x669)) ||
  (decide (Char.ofNat 0x966 ≤ c) && decide (c ≤ Char.ofNat 0x96F)) ||
  (decide (Char.ofNat 0xFF10 ≤ c) && decide (c ≤ Char.ofNat 0xFF19))

/-- Python regex `\d` on `str` patterns: decimal digits only (category Nd);
superscript digits satisfy `isdigit` but not `\d`. -/
def reDigitChar (c : Char) : Bool :=
  (decide ('0' ≤ c) && decide (c ≤ '9')) ||
  (decide (Char.ofNat 0x660 ≤ c) && decide (c ≤ Char.ofNat 0x669)) ||
  (decide (Char.ofNat 0x966 ≤ c) && decide (c ≤ Char.ofNat 0x96F)) ||
  (decide (Char.ofNat 0xFF10 ≤ c) && decide (c ≤ Char.ofNat 0xFF19))

/-- Python `str.split(sep)` for a one-character separator: `''` splits to
`['']`, adjacent separators yield empty components. -/
def pySplit (sep : Char) : List Char → List (List Char)
  | [] => [[]]
  | c :: t =>
    if c == sep then [] :: pySplit sep t
    else
      match pySplit sep t with
      | h :: r => (c :: h) :: r
      | [] => [[c]]

/-- Python `str.isdigit()` on a whole string: non-empty, all digits. -/
def pyIsdigitStr (g : List Char) : Bool := !g.isEmpty && g.all pyIsdigitChar

/-- `validate_version_str` (identical in `build.py` 49–55 and
`build_extensions.py` 121–127): every dot-separated component must satisfy
`str.isdigit`; the `assert` failure is modelled as `false`. -/
def validate_version_str (version_str : String) : Bool :=
  (pySplit '.' version_str.toList).all pyIsdigitStr

/-- Python `int()` restricted to the all-ASCII-digit strings valid version
components are made of (anything else raises, modelled as `none`). -/
def pyIntOpt (g : List Char) : Option Nat :=
  if !g.isEmpty && g.all (fun c => decide ('0' ≤ c) && decide (c ≤ '9')) then
    some (g.foldl (fun n c => 10 * n + (c.toNat - 48)) 0)
  else none

/-- `version_key` (`build_extensions.py` 96–98) and the `_sort_changelog`
key: `tuple(map(int, s.split('.')))`. -/
def version_key_opt (s : String) : Option (List Nat) :=
  (pySplit '.' s.toList).mapM pyIntOpt

/-- Totalised sort key (valid keys never take the default). -/
def version_keyD (s : String) : List Nat := (version_key_opt s).getD []

/-- Python tuple `<` on integer tuples: lexicographic, a proper prefix is
smaller. -/
def tupLt : List Nat → List Nat → Bool
  | [], [] => false
  | [], _ :: _ => true
  | _ :: _, [] => false
  | a :: as, b :: bs => if a < b then true else if b < a then false else tupLt as bs

/-- Stable insertion step for a descending sort: `x` goes before the first
element whose key is not greater than `x`'s, so equal keys keep their
original order, exactly like Python's stable `sorted(..., reverse=True)`. -/
def insertDesc (key : String × J → List Nat) (x : String × J) :
    List (String × J) → List (String × J)
  | [] => [x]
  | y :: ys => if tupLt (key x) (key y) then y :: insertDesc key x ys else x :: y :: ys

/-- Python `sorted(items, key=key, reverse=True)` (stable, descending). -/
def sortDesc (key : String × J → List Nat) : List (String × J) → List (String × J)
  | [] => []
  | x :: xs => insertDesc key x (sortDesc key xs)

/-- `_sort_changelog` (`build.py` 146–153): sort the changelog items by
numeric version tuple, descending; `int()` failing on any key propagates
(the file is then never written). -/
def _sort_changelog (cl : List (String × J)) : Except String (List (String × J)) :=
  if cl.all (fun p => (version_key_opt p.1).isSome) then
    .ok (sortDesc (fun p => version_keyD p.1) cl)
  else .error "ValueError: invalid literal for int()"

/-- The fresh changelog entry created for a new version (`build.py` 70–77);
the current date is the parameter `today`. -/
def newEntry (today : String) : J :=
  J.o [("date", J.s today), ("changes", J.o [("zh", J.a []), ("en", J.a [])])]

/-- `_ensure_changelog_structure` (`build.py` 133–144): backfill a missing
date, replace a missing or non-dict `changes` by fresh empty locale lists,
and backfill a missing `zh`/`en` list. -/
def _ensure_changelog_structure (today : String) (e : List (String × J)) :
    List (String × J) :=
  let e1 := if containsKey "date" e then e else pyDictSet "date" (J.s today) e
  match jget "changes" e1 with
  | some (J.o ch) =>
    let ch1 := if containsKey "zh" ch then ch else pyDictSet "zh" (J.a []) ch
    let ch2 := if containsKey "en" ch1 then ch1 else pyDictSet "en" (J.a []) ch1
    pyDictSet "changes" (J.o ch2) e1
  | some _ => pyDictSet "changes" (J.o [("zh", J.a []), ("en", J.a [])]) e1
  | none => pyDictSet "changes" (J.o [("zh", J.a []), ("en", J.a [])]) e1

/-- `_update_version_json` (`build.py` 57–90) on the loaded document: set
the top-level version, ensure a changelog section, create or backfill the
entry for `v`, re-sort descending, and (modulo file I/O) return the
document that is written back; any exception aborts before the write. -/
def _update_version_json (today v : String) (doc : List (String × J)) :
    Except String (List (String × J)) :=
  let d1 := pyDictSet "version" (J.s v) doc
  let d2 := if containsKey "changelog" d1 then d1 else pyDictSet "changelog" (J.o []) d1
  match jget "changelog" d2 with
  | some (J.o cl) =>
    let clE : Except String (List (String × J)) :=
      if containsKey v cl then
        match jget v cl with
        | some (J.o e) => .ok (pyDictSet v (J.o (_ensure_changelog_structure today e)) cl)
        | _ => .error "TypeError: changelog entry is not a dict"
      else .ok (cl ++ [(v, newEntry today)])
    match clE with
    | .ok cl1 =>
      match _sort_changelog cl1 with
      | .ok cls => .ok (pyDictSet "changelog" (J.o cls) d2)
      | .error m => .error m
    | .error m => .error m
  | _ => .error "TypeError: changelog is not a dict"

/-- Dot-joined rendering of a group decomposition (used to state the
claim's regex `^\d+(\.\d+)*$` denotationally). -/
def joinDot : List (List Char) → List Char
  | [] => []
  | [g] => g
  | g :: r => g ++ '.' :: joinDot r

/-- Following the spec's words for C8: `v` matches `^\d+(\.\d+)*$`, with
the Python-`re` meaning of `\d` — a non-empty sequence of non-empty
all-decimal-digit groups joined by single dots. -/
def SpecVer (v : String) : Prop :=
  ∃ gs : List (List Char), gs ≠ [] ∧
    (∀ g ∈ gs, g ≠ [] ∧ ∀ c ∈ g, reDigitChar c = true) ∧
    v.toList = joinDot gs

/-! ## Model of `build-tools/font_subset.py` -/

/-- A loaded `TTFont`: the table tags present, and the `cmap` subtables as
code-point lists when that table exists. -/
structure TTFontM where
  tables : List String
  cmaps : List (List Nat)

/-- CJK ranges of `subset_font_with_extra_chars` (`range` bounds are
exclusive on the right, exactly as in the source). -/
def chineseChar (n : Nat) : Bool :=
  (decide (0x4E00 ≤ n) && decide (n < 0x9FFF)) ||
  (decide (0x3400 ≤ n) && decide (n < 0x4DBF)) ||
  (decide (0x20000 ≤ n) && decide (n < 0x2A6DF)) ||
  (decide (0x2A700 ≤ n) && decide (n < 0x2B73F)) ||
  (decide (0x2B740 ≤ n) && decide (n < 0x2B81F)) ||
  (decide (0x2B820 ≤ n) && decide (n < 0x2CEAF)) ||
  (decide (0x2CEB0 ≤ n) && decide (n < 0x2EBEF))

/-- Fullwidth punctuation `range(0xFF00, 0xFFEF)`. -/
def fullwidthChar (n : Nat) : Bool := decide (0xFF00 ≤ n) && decide (n < 0xFFEF)

/-- The explicit whitespace list of `subset_font_with_extra_chars`. -/
def whitespaceChar (n : Nat) : Bool :=
  [0x9, 0xA, 0xD, 0x20, 0xA0, 0x1680, 0x2000, 0x2001, 0x2002, 0x2003,
   0x2004, 0x2005, 0x2006, 0x2007, 0x2008, 0x2009, 0x200A, 0x202F, 0x205F,
   0x3000].contains n

/-- Outcome of the subsetter: either the early error return — the function
prints a diagnostic and returns with no output font written — or the
character set handed to the font library's subsetter and saved. -/
inductive SubsetOutcome where
  | errorNoCmap
  | saved (keep : Nat → Bool)

/-- `subset_font_with_extra_chars` (`font_subset.py` 38–92): refuse fonts
with no `cmap` table; otherwise retain the font's non-Chinese characters
plus fullwidth punctuation, whitespace, and the caller's extra characters.
Glyph-level subsetting and the file write are the font library's job, so a
successful outcome records the retained character set. -/
def subset_font_with_extra_chars (font : TTFontM) (extra : List Char) :
    SubsetOutcome :=
  if !(font.tables.contains "cmap") then .errorNoCmap
  else
    let allChars : Nat → Bool := fun n => font.cmaps.any (fun t => t.contains n)
    let defaultChars : Nat → Bool := fun n =>
      (allChars n && !chineseChar n) || fullwidthChar n || whitespaceChar n
    .saved (fun n => defaultChars n || (extra.map Char.toNat).contains n)

/-- `subset_font` (`font_subset.py` 95–112), the function the script
actually invokes (line 159; the call to `subset_font_with_extra_chars` at
line 158 is commented out). It performs no `cmap` check of its own: it
hands `needed_chars` to the library subsetter via `populate(text=...)`,
runs `subset` and saves the output. The library's `Subsetter` reads the
`cmap` table only under its own `if "cmap" in font` guard, and the
options set here (`flavor`, `retain_names`) leave
`ignore_missing_unicodes` at its default `True`, under which characters
the font cannot map are merely logged — so the call chain raises nothing
for a `cmap`-less font and `font.save` writes an output font
unconditionally; the outcome records the requested character set. -/
def subset_font (font : TTFontM) (needed : List Char) : SubsetOutcome :=
  .saved (fun n => (needed.map Char.toNat).contains n)

/-- The tail of a canonical `@font-face` block after the family declaration's
closing quote: src url, unicode-range, weight, style and display
declarations. -/
def famTail (u ur w st d : List Char) : List Char :=
  ";src:".toList ++ ("url(\x22".toList ++ u ++ "\x22)".toList) ++ [';'] ++
  ("unicode-range".toList ++ [':']) ++ ur ++ [';'] ++
  ("font-weight".toList ++ [':']) ++ w ++ [';'] ++
  ("font-style".toList ++ [':']) ++ st ++ [';'] ++
  ("font-display".toList ++ [':']) ++ d ++ [';']

/-- A canonical `@font-face` block in the shape emitted by the font CDN. -/
def blockC (fam u ur w st d : List Char) : List Char :=
  "@font-face \x7b".toList ++ ("font-family:".toList ++ [qc]) ++ fam ++ [qc] ++
    famTail u ur w st d ++ [braceC]

/-- `blockC` with a `size-adjust:V;` declaration inserted before the brace. -/
def blockCsize (fam u ur w st d V : List Char) : List Char :=
  "@font-face \x7b".toList ++ ("font-family:".toList ++ [qc]) ++ fam ++ [qc] ++
    famTail u ur w st d ++ ("size-adjust".toList ++ [':']) ++ V ++ [';'] ++ [braceC]

/-- The part of a canonical block strictly before its `url(` value. -/
def preUrl (f : List Char) : List Char :=
  "@font-face \x7b".toList ++ ("font-family:".toList ++ [qc]) ++ f ++ [qc] ++ ";src:".toList

/-- The part of a canonical block strictly before its `unicode-range`
declaration. -/
def preUR (f u : List Char) : List Char :=
  "@font-face \x7b".toList ++ ("font-family:".toList ++ [qc]) ++ f ++ [qc] ++
  ";src:".toList ++ ("url(\x22".toList ++ u ++ "\x22)".toList) ++ [';']

/-- The part strictly before the `font-weight` declaration. -/
def preW (f u ur : List Char) : List Char :=
  preUR f u ++ ("unicode-range".toList ++ [':']) ++ ur ++ [';']

/-- The part strictly before the `font-style` declaration. -/
def preST (f u ur w : List Char) : List Char :=
  preW f u ur ++ ("font-weight".toList ++ [':']) ++ w ++ [';']

/-- The part strictly before the `font-display` declaration. -/
def preD (f u ur w st : List Char) : List Char :=
  preST f u ur w ++ ("font-style".toList ++ [':']) ++ st ++ [';']

/-! ## Generic lemmas about scanning -/

theorem takeWhile_app_all (p : Char → Bool) (a b : List Char)
    (h : ∀ c ∈ a, p c = true) :
    (a ++ b).takeWhile p = a ++ b.takeWhile p := by
  induction a with
  | nil => simp
  | cons c t ih =>
    simp only [List.cons_append, List.takeWhile_cons, h c (by simp)]
    simp [ih (fun d hd => h d (by simp [hd]))]

theorem takeWhile_cons_false (p : Char → Bool) (c : Char) (b : List Char)
    (h : p c = false) : (c :: b).takeWhile p = [] := by
  simp [List.takeWhile_cons, h]

theorem scanFirst_of_match (M : Matcher) (s : List Char) (len : Nat) (cap : List Char)
    (h : M s = some (len, cap)) : scanFirst M s = some (0, len, cap) := by
  cases s with
  | nil => simp [scanFirst, h]
  | cons c t => simp [scanFirst, h]

theorem scanFirst_app_none (M : Matcher) (a t : List Char)
    (h : ∀ p, p < a.length → M ((a ++ t).drop p) = none) :
    scanFirst M (a ++ t) = (scanFirst M t).map (fun r => (r.1 + a.length, r.2)) := by
  induction a with
  | nil =>
    simp only [List.nil_append, List.length_nil]
    cases hr : scanFirst M t with
    | none => simp
    | some r => simp
  | cons c as ih =>
    simp only [List.cons_append] at h ⊢
    have h0 := h 0 (by simp)
    simp only [List.drop_zero] at h0
    have hih := ih (fun p hp => by
      have := h (p + 1) (by simp; omega)
      simpa using this)
    simp only [scanFirst, h0, hih]
    cases hr : scanFirst M t with
    | none => simp
    | some r => simp; omega

theorem scanFirst_eq_none (M : Matcher) (s : List Char)
    (h : ∀ p, M (s.drop p) = none) : scanFirst M s = none := by
  induction s with
  | nil =>
    have := h 0
    simp only [List.drop_zero] at this
    simp [scanFirst, this]
  | cons c t ih =>
    have h0 := h 0
    simp only [List.drop_zero] at h0
    simp [scanFirst, h0, ih (fun p => by simpa using h (p + 1))]

theorem subAllF_fuel (M : Matcher) (repl : List Char) :
    ∀ f₁ f₂ s, s.length ≤ f₁ → s.length ≤ f₂ →
      subAllF M repl f₁ s = subAllF M repl f₂ s := by
  intro f₁
  induction f₁ with
  | zero =>
    intro f₂ s h1 _
    have : s = [] := List.length_eq_zero.1 (Nat.le_zero.1 h1)
    subst this
    cases f₂ <;> rfl
  | succ f ih =>
    intro f₂ s h1 h2
    cases s with
    | nil => cases f₂ <;> rfl
    | cons c t =>
      cases f₂ with
      | zero => simp at h2
      | succ g =>
        simp only [List.length_cons] at h1 h2
        cases hm : M (c :: t) with
        | none =>
          have e1 : subAllF M repl (f + 1) (c :: t) = c :: subAllF M repl f t := by
            simp [subAllF, hm]
          have e2 : subAllF M repl (g + 1) (c :: t) = c :: subAllF M repl g t := by
            simp [subAllF, hm]
          rw [e1, e2, ih g t (by omega) (by omega)]
        | some r =>
          obtain ⟨len, cap⟩ := r
          have e1 : subAllF M repl (f + 1) (c :: t) =
              repl ++ subAllF M repl f (t.drop (len - 1)) := by
            simp [subAllF, hm]
          have e2 : subAllF M repl (g + 1) (c :: t) =
              repl ++ subAllF M repl g (t.drop (len - 1)) := by
            simp [subAllF, hm]
          have hd : (t.drop (len - 1)).length ≤ t.length := by
            simp [List.length_drop]
          rw [e1, e2, ih g (t.drop (len - 1)) (by omega) (by omega)]

theorem subAll_app_none (M : Matcher) (repl a t : List Char)
    (h : ∀ p, p < a.length → M ((a ++ t).drop p) = none) :
    subAll M repl (a ++ t) = a ++ subAll M repl t := by
  induction a with
  | nil => simp
  | cons c as ih =>
    simp only [List.cons_append] at h ⊢
    have h0 := h 0 (by simp)
    simp only [List.drop_zero] at h0
    have hih : subAll M repl (as ++ t) = as ++ subAll M repl t :=
      ih (fun p hp => by
        have := h (p + 1) (by simp; omega)
        simpa using this)
    have e1 : subAll M repl (c :: (as ++ t)) = c :: subAll M repl (as ++ t) := by
      show subAllF M repl ((as ++ t).length + 1) (c :: (as ++ t)) = _
      simp only [subAllF, h0]
      rfl
    rw [e1, hih]

theorem subAll_hit (M : Matcher) (repl m rest cap : List Char)
    (hm : m ≠ []) (h : M (m ++ rest) = some (m.length, cap)) :
    subAll M repl (m ++ rest) = repl ++ subAll M repl rest := by
  cases m with
  | nil => exact absurd rfl hm
  | cons c m' =>
    show subAllF M repl (c :: (m' ++ rest)).length (c :: (m' ++ rest)) = _
    simp only [List.length_cons, subAllF]
    simp only [List.cons_append] at h
    rw [h]
    simp only [List.length_cons, Nat.add_sub_cancel]
    rw [List.drop_left]
    rw [subAllF_fuel M repl (m' ++ rest).length rest.length rest
      (by simp) (by simp)]
    rfl

theorem subAll_none (M : Matcher) (repl s : List Char)
    (h : ∀ p, p < s.length → M (s.drop p) = none) :
    subAll M repl s = s := by
  have := subAll_app_none M repl s [] (by simpa using h)
  rw [List.append_nil] at this
  rw [this, show subAll M repl [] = [] from rfl, List.append_nil]

theorem scanAllF_fuel (M : Matcher) :
    ∀ f₁ f₂ s, s.length ≤ f₁ → s.length ≤ f₂ →
      scanAllF M f₁ s = scanAllF M f₂ s := by
  intro f₁
  induction f₁ with
  | zero =>
    intro f₂ s h1 _
    have : s = [] := List.length_eq_zero.1 (Nat.le_zero.1 h1)
    subst this
    cases f₂ <;> rfl
  | succ f ih =>
    intro f₂ s h1 h2
    cases s with
    | nil => cases f₂ <;> rfl
    | cons c t =>
      cases f₂ with
      | zero => simp at h2
      | succ g =>
        simp only [List.length_cons] at h1 h2
        cases hm : M (c :: t) with
        | none =>
          have e1 : scanAllF M (f + 1) (c :: t) = scanAllF M f t := by
            simp [scanAllF, hm]
          have e2 : scanAllF M (g + 1) (c :: t) = scanAllF M g t := by
            simp [scanAllF, hm]
          rw [e1, e2, ih g t (by omega) (by omega)]
        | some r =>
          obtain ⟨len, cap⟩ := r
          have e1 : scanAllF M (f + 1) (c :: t) = cap :: scanAllF M f (t.drop (len - 1)) := by
            simp [scanAllF, hm]
          have e2 : scanAllF M (g + 1) (c :: t) = cap :: scanAllF M g (t.drop (len - 1)) := by
            simp [scanAllF, hm]
          have hd : (t.drop (len - 1)).length ≤ t.length := by
            simp [List.length_drop]
          rw [e1, e2, ih g (t.drop (len - 1)) (by omega) (by omega)]

theorem scanAll_app_none (M : Matcher) (a t : List Char)
    (h : ∀ p, p < a.length → M ((a ++ t).drop p) = none) :
    scanAll M (a ++ t) = scanAll M t := by
  induction a with
  | nil => simp
  | cons c as ih =>
    simp only [List.cons_append] at h ⊢
    have h0 := h 0 (by simp)
    simp only [List.drop_zero] at h0
    have hih : scanAll M (as ++ t) = scanAll M t :=
      ih (fun p hp => by
        have := h (p + 1) (by simp; omega)
        simpa using this)
    have e1 : scanAll M (c :: (as ++ t)) = scanAll M (as ++ t) := by
      show scanAllF M ((as ++ t).length + 1) (c :: (as ++ t)) = _
      simp only [scanAllF, h0]
      rfl
    rw [e1, hih]

theorem scanAll_hit (M : Matcher) (m rest cap : List Char)
    (hm : m ≠ []) (h : M (m ++ rest) = some (m.length, cap)) :
    scanAll M (m ++ rest) = cap :: scanAll M rest := by
  cases m with
  | nil => exact absurd rfl hm
  | cons c m' =>
    show scanAllF M (c :: (m' ++ rest)).length (c :: (m' ++ rest)) = _
    simp only [List.length_cons, scanAllF]
    simp only [List.cons_append] at h
    rw [h]
    simp only [List.length_cons, Nat.add_sub_cancel]
    rw [List.drop_left]
    rw [scanAllF_fuel M (m' ++ rest).length rest.length rest (by simp) (by simp)]
    rfl

theorem scanAll_eq_nil (M : Matcher) (s : List Char)
    (h : ∀ p, p < s.length → M (s.drop p) = none) :
    scanAll M s = [] := by
  have := scanAll_app_none M s [] (by simpa using h)
  simpa using this

/-! ## Computation lemmas for the individual matchers -/

theorem litAt_hit (lit rest : List Char) (h : lit ≠ []) :
    litAt lit (lit ++ rest) = some (lit.length, lit) := by
  unfold litAt
  rw [isPre_append]
  simp [List.isEmpty_iff, h]

theorem litAt_req (lit u : List Char) (h : isPre lit u = false) : litAt lit u = none := by
  unfold litAt
  rw [h]
  simp

theorem litCapTermAt_req (lit : List Char) (term : Char) (u : List Char)
    (h : isPre lit u = false) : litCapTermAt lit term u = none := by
  unfold litCapTermAt
  rw [h]
  simp

theorem urlWoff2At_req (u : List Char)
    (h : isPre ("url(\x22".toList) u = false) : urlWoff2At u = none := by
  unfold urlWoff2At
  rw [h]
  simp

theorem fontFaceBlockAt_req (u : List Char)
    (h : isPre ("@font-face".toList) u = false) : fontFaceBlockAt u = none := by
  unfold fontFaceBlockAt
  rw [h]
  simp

theorem relUrlAt_req (u : List Char)
    (h1 : isPre ("url(\x22./".toList) u = false)
    (h2 : isPre ("url(\x27./".toList) u = false) : relUrlAt u = none := by
  unfold relUrlAt
  rw [h1, h2]
  simp

/-- If a matcher only fires where its literal occurs, and the literal has no
occurrence inside a prefix `ext` of `s`, the matcher fails at every position
whose window fits inside `ext`. -/
theorem matcher_none_drop (M : Matcher) (lit ext s : List Char)
    (hM : ∀ u, isPre lit u = false → M u = none)
    (hpre : isPre ext s = true) (hno : containsSub lit ext = false)
    (p : Nat) (hfit : p + lit.length ≤ ext.length) : M (s.drop p) = none := by
  apply hM
  have := not_occursAt_of_prefix lit ext s p hpre hno hfit
  simpa [occursAt] using this

/-- If the literal occurs nowhere in `s`, the matcher fails everywhere. -/
theorem matcher_none_all (M : Matcher) (lit s : List Char)
    (hM : ∀ u, isPre lit u = false → M u = none)
    (hno : containsSub lit s = false) (p : Nat) : M (s.drop p) = none := by
  apply hM
  by_contra hocc
  rw [Bool.not_eq_false] at hocc
  have : occursAt lit s p = true := hocc
  rw [containsSub_of_occursAt lit s p this] at hno
  cases hno

theorem litCapTermAt_compute (lit : List Char) (term : Char) (cap rest : List Char)
    (hcap : cap ≠ []) (hterm : ∀ c ∈ cap, (c != term) = true) :
    litCapTermAt lit term (lit ++ (cap ++ term :: rest)) =
      some (lit.length + cap.length + 1, cap) := by
  unfold litCapTermAt
  rw [isPre_append]
  simp only [if_pos rfl, List.drop_left]
  rw [takeWhile_app_all _ cap (term :: rest) hterm,
      takeWhile_cons_false _ term rest (by simp)]
  simp only [List.append_nil, List.drop_left]
  have hce : cap.isEmpty = false := by
    cases cap with
    | nil => exact absurd rfl hcap
    | cons a b => rfl
  simp [hce]

/-- The lit-cap-term matcher in the `m ++ rest` shape used by the scanning
lemmas: `m` is the full match `lit ++ cap ++ [term]`. -/
theorem litCapTermAt_hit (lit : List Char) (term : Char) (cap rest : List Char)
    (hcap : cap ≠ []) (hterm : ∀ c ∈ cap, (c != term) = true) :
    litCapTermAt lit term ((lit ++ cap ++ [term]) ++ rest) =
      some ((lit ++ cap ++ [term]).length, cap) := by
  have hshape : (lit ++ cap ++ [term]) ++ rest = lit ++ (cap ++ term :: rest) := by
    simp [List.append_assoc]
  rw [hshape, litCapTermAt_compute lit term cap rest hcap hterm]
  simp [List.length_append]
  omega

theorem urlWoff2At_compute (u rest : List Char)
    (hq : ∀ c ∈ u, (c != qc) = true)
    (hsuf : isPre (".woff2".toList.reverse) u.reverse = true)
    (hlen : 7 ≤ u.length) :
    urlWoff2At ("url(\x22".toList ++ (u ++ ("\x22)".toList ++ rest))) =
      some (5 + u.length + 2, u) := by
  have hne : u ≠ [] := by
    intro h
    rw [h] at hlen
    simp at hlen
  have hue : u.isEmpty = false := by
    cases u with
    | nil => exact absurd rfl hne
    | cons a b => rfl
  unfold urlWoff2At
  rw [isPre_append]
  simp only [if_pos rfl]
  rw [List.drop_left' (by rfl)]
  have hq2 : ("\x22)".toList ++ rest).takeWhile (fun c => c != qc) = [] := by
    have h0 : "\x22)".toList = [qc, ')'] := by decide
    rw [h0]
    exact takeWhile_cons_false _ qc _ (by simp)
  rw [takeWhile_app_all _ u _ hq, hq2]
  simp only [List.append_nil]
  rw [List.drop_left]
  have hpre2 : isPre ("\x22)".toList) ("\x22)".toList ++ rest) = true := isPre_append _ _
  simp [hue, hlen]
  exact ⟨by simpa using hsuf, by simpa using hpre2⟩

/-- The url matcher in `m ++ rest` shape: the full match is
`url("` ++ u ++ `")`. -/
theorem urlWoff2At_hit (u rest : List Char)
    (hq : ∀ c ∈ u, (c != qc) = true)
    (hsuf : isPre (".woff2".toList.reverse) u.reverse = true)
    (hlen : 7 ≤ u.length) :
    urlWoff2At (("url(\x22".toList ++ u ++ "\x22)".toList) ++ rest) =
      some (("url(\x22".toList ++ u ++ "\x22)".toList).length, u) := by
  have hshape : ("url(\x22".toList ++ u ++ "\x22)".toList) ++ rest =
      "url(\x22".toList ++ (u ++ ("\x22)".toList ++ rest)) := by
    simp [List.append_assoc]
  rw [hshape, urlWoff2At_compute u rest hq hsuf hlen]
  simp [List.length_append]
  omega

theorem fontFaceBlockAt_compute (ws inner rest : List Char)
    (hws : ∀ c ∈ ws, isPySpace c = true)
    (hinner : ∀ c ∈ inner, (c != braceC) = true) :
    fontFaceBlockAt (("@font-face".toList ++ ws ++ braceO :: inner ++ [braceC]) ++ rest) =
      some (("@font-face".toList ++ ws ++ braceO :: inner ++ [braceC]).length,
            "@font-face".toList ++ ws ++ braceO :: inner ++ [braceC]) := by
  have hshape : ("@font-face".toList ++ ws ++ braceO :: inner ++ [braceC]) ++ rest =
      "@font-face".toList ++ (ws ++ (braceO :: (inner ++ braceC :: rest))) := by
    simp [List.append_assoc]
  rw [hshape]
  unfold fontFaceBlockAt
  rw [isPre_append]
  simp only [if_pos rfl]
  rw [List.drop_left' (by rfl)]
  rw [takeWhile_app_all _ ws _ hws,
      takeWhile_cons_false _ braceO _ (by decide)]
  simp only [List.append_nil, List.drop_left]
  simp only [beq_self_eq_true, if_pos rfl]
  rw [takeWhile_app_all _ inner _ hinner, takeWhile_cons_false _ braceC _ (by simp)]
  simp only [List.append_nil, List.drop_left]
  simp only [beq_self_eq_true, if_pos rfl]
  have hlen : ("@font-face".toList ++ ws ++ braceO :: inner ++ [braceC]).length =
      10 + ws.length + 1 + inner.length + 1 := by
    simp [List.length_append]
    omega
  have htake : ("@font-face".toList ++ (ws ++ (braceO :: (inner ++ braceC :: rest)))).take
      (10 + ws.length + 1 + inner.length + 1) =
      "@font-face".toList ++ ws ++ braceO :: inner ++ [braceC] := by
    rw [← hshape, ← hlen]
    exact List.take_left' rfl
  rw [hlen, htake]
  simp


theorem isPre_app_both (a x y : List Char) (h : isPre x y = true) :
    isPre (a ++ x) (a ++ y) = true := by
  induction a with
  | nil => simpa
  | cons c t ih => simp [isPre, ih]

/-- No position inside `x` can start a `litCapTermAt lit term` match of the
string `x ++ t`, provided `lit` does not occur in `x ++ lit.dropLast` and
`lit.dropLast ++ rest' = t` for some continuation (the usual shape below is
`t = lit ++ ...`). -/
theorem lct_skip (lit : List Char) (term : Char) (x t : List Char)
    (hlitne : lit ≠ [])
    (hpre : isPre lit.dropLast t = true)
    (hx : containsSub lit (x ++ lit.dropLast) = false) :
    ∀ p, p < x.length → litCapTermAt lit term ((x ++ t).drop p) = none := by
  intro p hp
  apply matcher_none_drop _ lit (x ++ lit.dropLast) _ (litCapTermAt_req lit term)
    (isPre_app_both x _ _ hpre) hx
  have h1 : 1 ≤ lit.length := by
    cases lit with
    | nil => exact absurd rfl hlitne
    | cons a b => simp
  simp [List.length_append, List.length_dropLast]
  omega

/-- `re.sub` of a `LIT cap TERM` pattern on a subject with exactly one
occurrence: the whole match is replaced and everything else kept. -/
theorem subAll_single_lct (lit : List Char) (term : Char) (x cap y repl : List Char)
    (hlitne : lit ≠ [])
    (hx : containsSub lit (x ++ lit.dropLast) = false)
    (hcap : cap ≠ []) (hterm : ∀ c ∈ cap, (c != term) = true)
    (hy : containsSub lit y = false) :
    subAll (litCapTermAt lit term) repl (x ++ ((lit ++ cap ++ [term]) ++ y)) =
      x ++ (repl ++ y) := by
  have hpre : isPre lit.dropLast ((lit ++ cap ++ [term]) ++ y) = true := by
    have hsplit : lit.dropLast ++ [lit.getLast hlitne] = lit :=
      List.dropLast_append_getLast hlitne
    have : (lit ++ cap ++ [term]) ++ y =
        lit.dropLast ++ ([lit.getLast hlitne] ++ (cap ++ [term] ++ y)) := by
      rw [← List.append_assoc, hsplit]
      simp [List.append_assoc]
    rw [this]
    exact isPre_append _ _
  rw [subAll_app_none _ _ x _ (lct_skip lit term x _ hlitne hpre hx)]
  rw [subAll_hit _ _ (lit ++ cap ++ [term]) y cap (by simp)
    (litCapTermAt_hit lit term cap y hcap hterm)]
  rw [subAll_none _ _ y (fun p _ =>
    matcher_none_all _ lit y (litCapTermAt_req lit term) hy p)]

/-- `re.search` of a `LIT cap TERM` pattern finds the occurrence after `x`. -/
theorem scanFirst_single_lct (lit : List Char) (term : Char) (x cap y : List Char)
    (hlitne : lit ≠ [])
    (hx : containsSub lit (x ++ lit.dropLast) = false)
    (hcap : cap ≠ []) (hterm : ∀ c ∈ cap, (c != term) = true) :
    scanFirst (litCapTermAt lit term) (x ++ ((lit ++ cap ++ [term]) ++ y)) =
      some (x.length, (lit ++ cap ++ [term]).length, cap) := by
  have hpre : isPre lit.dropLast ((lit ++ cap ++ [term]) ++ y) = true := by
    have hsplit : lit.dropLast ++ [lit.getLast hlitne] = lit :=
      List.dropLast_append_getLast hlitne
    have : (lit ++ cap ++ [term]) ++ y =
        lit.dropLast ++ ([lit.getLast hlitne] ++ (cap ++ [term] ++ y)) := by
      rw [← List.append_assoc, hsplit]
      simp [List.append_assoc]
    rw [this]
    exact isPre_append _ _
  rw [scanFirst_app_none _ x _ (lct_skip lit term x _ hlitne hpre hx)]
  rw [scanFirst_of_match _ _ _ _ (litCapTermAt_hit lit term cap y hcap hterm)]
  simp

/-- `re.findall` of a `LIT cap TERM` pattern on a subject with exactly one
occurrence returns exactly that capture. -/
theorem scanAll_single_lct (lit : List Char) (term : Char) (x cap y : List Char)
    (hlitne : lit ≠ [])
    (hx : containsSub lit (x ++ lit.dropLast) = false)
    (hcap : cap ≠ []) (hterm : ∀ c ∈ cap, (c != term) = true)
    (hy : containsSub lit y = false) :
    scanAll (litCapTermAt lit term) (x ++ ((lit ++ cap ++ [term]) ++ y)) = [cap] := by
  have hpre : isPre lit.dropLast ((lit ++ cap ++ [term]) ++ y) = true := by
    have hsplit : lit.dropLast ++ [lit.getLast hlitne] = lit :=
      List.dropLast_append_getLast hlitne
    have : (lit ++ cap ++ [term]) ++ y =
        lit.dropLast ++ ([lit.getLast hlitne] ++ (cap ++ [term] ++ y)) := by
      rw [← List.append_assoc, hsplit]
      simp [List.append_assoc]
    rw [this]
    exact isPre_append _ _
  rw [scanAll_app_none _ x _ (lct_skip lit term x _ hlitne hpre hx)]
  rw [scanAll_hit _ (lit ++ cap ++ [term]) y cap (by simp)
    (litCapTermAt_hit lit term cap y hcap hterm)]
  rw [scanAll_eq_nil _ y (fun p _ =>
    matcher_none_all _ lit y (litCapTermAt_req lit term) hy p)]

theorem searchVal_pre (prop : String) (x cap y : List Char)
    (hskip : containsSub (prop.toList ++ [':']) (x ++ prop.toList) = false)
    (hcap : cap ≠ []) (hcs : ∀ c ∈ cap, (c != ';') = true) :
    searchVal prop (x ++ (((prop.toList ++ [':']) ++ cap ++ [';']) ++ y)) = some cap := by
  unfold searchVal
  rw [scanFirst_single_lct (prop.toList ++ [':']) ';' x cap y (by simp)
    (by rw [List.dropLast_concat]; exact hskip) hcap hcs]
  rfl

theorem searchVal_shape (prop : String) (x cap y s : List Char)
    (hs : s = x ++ (((prop.toList ++ [':']) ++ cap ++ [';']) ++ y))
    (hskip : containsSub (prop.toList ++ [':']) (x ++ prop.toList) = false)
    (hcap : cap ≠ []) (hcs : ∀ c ∈ cap, (c != ';') = true) :
    searchVal prop s = some cap := by
  rw [hs]
  exact searchVal_pre prop x cap y hskip hcap hcs

theorem searchVal_none_of_no_sub (prop : String) (s : List Char)
    (h : containsSub (prop.toList ++ [':']) s = false) :
    searchVal prop s = none := by
  unfold searchVal
  rw [scanFirst_eq_none _ _ (matcher_none_all _ (prop.toList ++ [':']) s
    (litCapTermAt_req _ ';') h)]
  rfl

theorem fm_app {p : Char → Bool} {X Y : List Char}
    (hx : ∀ c ∈ X, p c = true) (hy : ∀ c ∈ Y, p c = true) :
    ∀ c ∈ X ++ Y, p c = true := by
  intro c hc
  rcases List.mem_append.1 hc with h | h
  exacts [hx c h, hy c h]

theorem famTail_brace (u ur w st d : List Char)
    (hu : ∀ c ∈ u, (c != braceC) = true) (hur : ∀ c ∈ ur, (c != braceC) = true)
    (hw : ∀ c ∈ w, (c != braceC) = true) (hst : ∀ c ∈ st, (c != braceC) = true)
    (hd : ∀ c ∈ d, (c != braceC) = true) :
    ∀ c ∈ famTail u ur w st d, (c != braceC) = true := by
  have ls : ∀ c ∈ ";src:".toList, (c != braceC) = true := by decide
  have l1 : ∀ c ∈ "url(\x22".toList, (c != braceC) = true := by decide
  have l2 : ∀ c ∈ "\x22)".toList, (c != braceC) = true := by decide
  have lsemi : ∀ c ∈ [';'], (c != braceC) = true := by decide
  have lur : ∀ c ∈ ("unicode-range".toList ++ [':']), (c != braceC) = true := by decide
  have lw : ∀ c ∈ ("font-weight".toList ++ [':']), (c != braceC) = true := by decide
  have lst2 : ∀ c ∈ ("font-style".toList ++ [':']), (c != braceC) = true := by decide
  have ld2 : ∀ c ∈ ("font-display".toList ++ [':']), (c != braceC) = true := by decide
  unfold famTail
  exact fm_app (fm_app (fm_app (fm_app (fm_app (fm_app (fm_app (fm_app (fm_app
    (fm_app (fm_app (fm_app (fm_app (fm_app ls (fm_app (fm_app l1 hu) l2)) lsemi)
    lur) hur) lsemi) lw) hw) lsemi) lst2) hst) lsemi) ld2) hd) lsemi

theorem blockC_findBlocks (fam u ur w st d : List Char)
    (hfam : ∀ c ∈ fam, (c != braceC) = true)
    (htail : ∀ c ∈ famTail u ur w st d, (c != braceC) = true) :
    findBlocks (blockC fam u ur w st d) = [blockC fam u ur w st d] := by
  have l1 : ∀ c ∈ ("font-family:".toList ++ [qc]), (c != braceC) = true := by decide
  have l2 : ∀ c ∈ [qc], (c != braceC) = true := by decide
  have hinner : ∀ c ∈ ("font-family:".toList ++ [qc]) ++ (fam ++ ([qc] ++ famTail u ur w st d)),
      (c != braceC) = true := fm_app l1 (fm_app hfam (fm_app l2 htail))
  have h0 : "@font-face \x7b".toList = "@font-face".toList ++ [' '] ++ [braceO] := by
    decide
  have hshape : blockC fam u ur w st d =
      ("@font-face".toList ++ [' '] ++
        braceO :: (("font-family:".toList ++ [qc]) ++ (fam ++ ([qc] ++ famTail u ur w st d))) ++
        [braceC]) ++ [] := by
    unfold blockC
    rw [h0]
    simp [List.append_assoc]
  have hm := fontFaceBlockAt_compute [' ']
    (("font-family:".toList ++ [qc]) ++ (fam ++ ([qc] ++ famTail u ur w st d))) []
    (by decide) hinner
  unfold findBlocks
  rw [hshape]
  rw [scanAll_hit _ _ [] _ (by simp) hm]
  simp
  rfl

theorem blockC_searchUrl (fam u ur w st d : List Char)
    (hskip : containsSub ("url(\x22".toList) (preUrl fam ++ "url(".toList) = false)
    (huq : ∀ c ∈ u, (c != qc) = true)
    (husuf : isPre (".woff2".toList.reverse) u.reverse = true)
    (hu7 : 7 ≤ u.length) :
    searchUrl (blockC fam u ur w st d) = some u := by
  have hshape : blockC fam u ur w st d =
      preUrl fam ++ (("url(\x22".toList ++ u ++ "\x22)".toList) ++
        ([';'] ++ (("unicode-range".toList ++ [':']) ++ ur ++ [';'] ++
          ("font-weight".toList ++ [':']) ++ w ++ [';'] ++
          ("font-style".toList ++ [':']) ++ st ++ [';'] ++
          ("font-display".toList ++ [':']) ++ d ++ [';'] ++ [braceC]))) := by
    simp [blockC, famTail, preUrl, List.append_assoc]
  have hsplit : "url(\x22".toList = "url(".toList ++ [qc] := by decide
  have hpreT : isPre ("url(".toList)
      (("url(\x22".toList ++ u ++ "\x22)".toList) ++
        ([';'] ++ (("unicode-range".toList ++ [':']) ++ ur ++ [';'] ++
          ("font-weight".toList ++ [':']) ++ w ++ [';'] ++
          ("font-style".toList ++ [':']) ++ st ++ [';'] ++
          ("font-display".toList ++ [':']) ++ d ++ [';'] ++ [braceC]))) = true := by
    have ht : ("url(\x22".toList ++ u ++ "\x22)".toList) ++
        ([';'] ++ (("unicode-range".toList ++ [':']) ++ ur ++ [';'] ++
          ("font-weight".toList ++ [':']) ++ w ++ [';'] ++
          ("font-style".toList ++ [':']) ++ st ++ [';'] ++
          ("font-display".toList ++ [':']) ++ d ++ [';'] ++ [braceC])) =
        "url(".toList ++ ([qc] ++ (u ++ ("\x22)".toList ++
          ([';'] ++ (("unicode-range".toList ++ [':']) ++ ur ++ [';'] ++
          ("font-weight".toList ++ [':']) ++ w ++ [';'] ++
          ("font-style".toList ++ [':']) ++ st ++ [';'] ++
          ("font-display".toList ++ [':']) ++ d ++ [';'] ++ [braceC]))))) := by
      rw [hsplit]
      simp [List.append_assoc]
    rw [ht]
    exact isPre_append _ _
  have hskipP : ∀ p, p < (preUrl fam).length →
      urlWoff2At ((preUrl fam ++ (("url(\x22".toList ++ u ++ "\x22)".toList) ++
        ([';'] ++ (("unicode-range".toList ++ [':']) ++ ur ++ [';'] ++
          ("font-weight".toList ++ [':']) ++ w ++ [';'] ++
          ("font-style".toList ++ [':']) ++ st ++ [';'] ++
          ("font-display".toList ++ [':']) ++ d ++ [';'] ++ [braceC])))).drop p) = none := by
    intro p hp
    apply matcher_none_drop _ ("url(\x22".toList) (preUrl fam ++ "url(".toList) _
      urlWoff2At_req (isPre_app_both _ _ _ hpreT) hskip
    have h5 : ("url(\x22".toList).length = 5 := by decide
    have h4 : ("url(".toList).length = 4 := by decide
    simp [List.length_append, h5, h4]
    omega
  unfold searchUrl
  rw [hshape, scanFirst_app_none _ _ _ hskipP,
      scanFirst_of_match _ _ _ _ (urlWoff2At_hit u _ huq husuf hu7)]
  rfl

theorem blockC_parse (fam u ur w st d R V : List Char)
    (hRne : R ≠ []) (hVne : V ≠ [])
    (hskipUrl : containsSub ("url(\x22".toList) (preUrl fam ++ "url(".toList) = false)
    (huq : ∀ c ∈ u, (c != qc) = true)
    (husuf : isPre (".woff2".toList.reverse) u.reverse = true)
    (hu7 : 7 ≤ u.length)
    (hurne : ur ≠ []) (hurs : ∀ c ∈ ur, (c != ';') = true)
    (hwne : w ≠ []) (hws : ∀ c ∈ w, (c != ';') = true)
    (hstne : st ≠ []) (hsts : ∀ c ∈ st, (c != ';') = true)
    (hdne : d ≠ []) (hds : ∀ c ∈ d, (c != ';') = true)
    (hskipUR : containsSub ("unicode-range".toList ++ [':'])
      (preUR fam u ++ "unicode-range".toList) = false)
    (hskipW : containsSub ("font-weight".toList ++ [':'])
      (preW fam u ur ++ "font-weight".toList) = false)
    (hskipST : containsSub ("font-style".toList ++ [':'])
      (preST fam u ur w ++ "font-style".toList) = false)
    (hskipD : containsSub ("font-display".toList ++ [':'])
      (preD fam u ur w st ++ "font-display".toList) = false)
    (hascent : containsSub ("ascent-override".toList ++ [':'])
      (blockC fam u ur w st d) = false) :
    parse_block (some R) (some V) (blockC fam u ur w st d) =
      [("family", R), ("url", u), ("unicodeRange", pyReplace [' '] [] ur),
       ("fontWeight", pyStrip w), ("fontStyle", pyStrip st),
       ("fontDisplay", pyStrip d), ("sizeAdjust", V)] := by
  have hu' := blockC_searchUrl fam u ur w st d hskipUrl huq husuf hu7
  have hur' : searchVal "unicode-range" (blockC fam u ur w st d) = some ur :=
    searchVal_shape "unicode-range" (preUR fam u) ur
      (("font-weight".toList ++ [':']) ++ w ++ [';'] ++
       ("font-style".toList ++ [':']) ++ st ++ [';'] ++
       ("font-display".toList ++ [':']) ++ d ++ [';'] ++ [braceC]) _
      (by simp [blockC, famTail, preUR, List.append_assoc]) hskipUR hurne hurs
  have hw' : searchVal "font-weight" (blockC fam u ur w st d) = some w :=
    searchVal_shape "font-weight" (preW fam u ur) w
      (("font-style".toList ++ [':']) ++ st ++ [';'] ++
       ("font-display".toList ++ [':']) ++ d ++ [';'] ++ [braceC]) _
      (by simp [blockC, famTail, preUR, preW, List.append_assoc]) hskipW hwne hws
  have hst' : searchVal "font-style" (blockC fam u ur w st d) = some st :=
    searchVal_shape "font-style" (preST fam u ur w) st
      (("font-display".toList ++ [':']) ++ d ++ [';'] ++ [braceC]) _
      (by simp [blockC, famTail, preUR, preW, preST, List.append_assoc]) hskipST hstne hsts
  have hd' : searchVal "font-display" (blockC fam u ur w st d) = some d :=
    searchVal_shape "font-display" (preD fam u ur w st) d [braceC] _
      (by simp [blockC, famTail, preUR, preW, preST, preD, List.append_assoc]) hskipD hdne hds
  have hao : searchVal "ascent-override" (blockC fam u ur w st d) = none :=
    searchVal_none_of_no_sub _ _ hascent
  have hRe : R.isEmpty = false := by
    cases R with
    | nil => exact absurd rfl hRne
    | cons a b => rfl
  have hVe : V.isEmpty = false := by
    cases V with
    | nil => exact absurd rfl hVne
    | cons a b => rfl
  unfold parse_block
  rw [hu', hur', hw', hst', hd', hao]
  simp [hRe, hVe]

theorem blockC_patch (fam u ur w st d R V : List Char)
    (hRne : R ≠ []) (hVne : V ≠ [])
    (hskipUrl : containsSub ("url(\x22".toList) (preUrl fam ++ "url(".toList) = false)
    (huq : ∀ c ∈ u, (c != qc) = true)
    (husuf : isPre (".woff2".toList.reverse) u.reverse = true)
    (hu7 : 7 ≤ u.length)
    (huhttps : isPre ("https://".toList) u = true)
    (hfamne : fam ≠ []) (hfamq : ∀ c ∈ fam, (c != qc) = true)
    (hfamy : containsSub ("font-family:".toList ++ [qc])
      (famTail u ur w st d ++ [braceC]) = false)
    (hsize : containsSub ("size-adjust".toList ++ [':']) (blockC R u ur w st d) = false) :
    patch_block (some R) (some V) (blockC fam u ur w st d) =
      .ok (blockCsize R u ur w st d V) := by
  have hu' := blockC_searchUrl fam u ur w st d hskipUrl huq husuf hu7
  have hue : u.isEmpty = false := by
    cases u with
    | nil => simp at hu7
    | cons a b => rfl
  have hpu : patch_url u (blockC fam u ur w st d) = .ok (blockC fam u ur w st d) := by
    have huhttps2 : isPre ['h','t','t','p','s',':','/','/'] u = true := by
      simpa using huhttps
    unfold patch_url
    simp [hue, huhttps2]
  have hRe : R.isEmpty = false := by
    cases R with
    | nil => exact absurd rfl hRne
    | cons a b => rfl
  have hVe : V.isEmpty = false := by
    cases V with
    | nil => exact absurd rfl hVne
    | cons a b => rfl
  have hpf : patch_family R (blockC fam u ur w st d) = blockC R u ur w st d := by
    unfold patch_family
    have hshape : blockC fam u ur w st d =
        "@font-face \x7b".toList ++
          ((("font-family:".toList ++ [qc]) ++ fam ++ [qc]) ++
            (famTail u ur w st d ++ [braceC])) := by
      simp [blockC, List.append_assoc]
    rw [hshape]
    rw [subAll_single_lct ("font-family:".toList ++ [qc]) qc ("@font-face \x7b".toList)
      fam (famTail u ur w st d ++ [braceC]) _ (by decide) (by decide) hfamne hfamq hfamy]
    simp [blockC, List.append_assoc]
  have hsz : containsSub ("size-adjust:".toList) (blockC R u ur w st d) = false := by
    have he : "size-adjust:".toList = "size-adjust".toList ++ [':'] := by decide
    rw [he]
    exact hsize
  have hps : patch_size V (blockC R u ur w st d) = blockCsize R u ur w st d V := by
    unfold patch_size
    rw [hsz]
    simp only [Bool.false_eq_true, if_false]
    unfold blockC
    rw [List.dropLast_concat]
    have he : "size-adjust:".toList = "size-adjust".toList ++ [':'] := by decide
    rw [he]
    simp [blockCsize, List.append_assoc]
  unfold patch_block
  rw [hu']
  simp only [Option.getD_some]
  rw [hpu]
  simp [hRe, hVe, hpf, hps]

theorem pyReplace_self (blk repl : List Char) (hne : blk ≠ []) :
    pyReplace blk repl blk = repl := by
  have h1 : subAll (litAt blk) repl (blk ++ []) = repl ++ subAll (litAt blk) repl [] :=
    subAll_hit _ _ blk [] blk hne (litAt_hit blk [] hne)
  have h2 : subAll (litAt blk) repl ([] : List Char) = [] := rfl
  rw [h2, List.append_nil, List.append_nil] at h1
  exact h1

theorem blockC_ne_nil (fam u ur w st d : List Char) : blockC fam u ur w st d ≠ [] := by
  intro h
  have := congrArg List.length h
  simp [blockC] at this

theorem css2manifest_blockC (fam u ur w st d R V : List Char)
    (hfamne : fam ≠ []) (hfamq : ∀ c ∈ fam, (c != qc) = true)
    (hfamb : ∀ c ∈ fam, (c != braceC) = true)
    (hRne : R ≠ [])
    (hu7 : 7 ≤ u.length) (huq : ∀ c ∈ u, (c != qc) = true)
    (husuf : isPre (".woff2".toList.reverse) u.reverse = true)
    (huhttps : isPre ("https://".toList) u = true)
    (hub : ∀ c ∈ u, (c != braceC) = true)
    (hurne : ur ≠ []) (hurs : ∀ c ∈ ur, (c != ';') = true)
    (hurb : ∀ c ∈ ur, (c != braceC) = true)
    (hwne : w ≠ []) (hws : ∀ c ∈ w, (c != ';') = true)
    (hwb : ∀ c ∈ w, (c != braceC) = true)
    (hstne : st ≠ []) (hsts : ∀ c ∈ st, (c != ';') = true)
    (hstb : ∀ c ∈ st, (c != braceC) = true)
    (hdne : d ≠ []) (hds : ∀ c ∈ d, (c != ';') = true)
    (hdb : ∀ c ∈ d, (c != braceC) = true)
    (hVne : V ≠ [])
    (hskipUrl : containsSub ("url(\x22".toList) (preUrl fam ++ "url(".toList) = false)
    (hskipUR : containsSub ("unicode-range".toList ++ [':'])
      (preUR fam u ++ "unicode-range".toList) = false)
    (hskipW : containsSub ("font-weight".toList ++ [':'])
      (preW fam u ur ++ "font-weight".toList) = false)
    (hskipST : containsSub ("font-style".toList ++ [':'])
      (preST fam u ur w ++ "font-style".toList) = false)
    (hskipD : containsSub ("font-display".toList ++ [':'])
      (preD fam u ur w st ++ "font-display".toList) = false)
    (hfamy : containsSub ("font-family:".toList ++ [qc])
      (famTail u ur w st d ++ [braceC]) = false)
    (hsize : containsSub ("size-adjust".toList ++ [':']) (blockC R u ur w st d) = false)
    (hascent : containsSub ("ascent-override".toList ++ [':'])
      (blockC fam u ur w st d) = false) :
    css2manifest (blockC fam u ur w st d) (some R) (some V) =
      .ok ([[("family", R), ("url", u), ("unicodeRange", pyReplace [' '] [] ur),
             ("fontWeight", pyStrip w), ("fontStyle", pyStrip st),
             ("fontDisplay", pyStrip d), ("sizeAdjust", V)]],
           blockCsize R u ur w st d V) := by
  have htail := famTail_brace u ur w st d hub hurb hwb hstb hdb
  have hfb := blockC_findBlocks fam u ur w st d hfamb htail
  have hparse := blockC_parse fam u ur w st d R V hRne hVne hskipUrl huq husuf hu7
    hurne hurs hwne hws hstne hsts hdne hds hskipUR hskipW hskipST hskipD hascent
  have hpatch := blockC_patch fam u ur w st d R V hRne hVne hskipUrl huq husuf hu7
    huhttps hfamne hfamq hfamy hsize
  unfold css2manifest
  rw [hfb]
  simp [List.foldlM, hparse, hpatch,
    pyReplace_self _ _ (blockC_ne_nil fam u ur w st d)]

/-! ## Claim C1 — counterexample -/

/-- Claim C1 (counterexample): the patching step does not always preserve
the `font-weight` declaration value. In a block whose `font-weight` value
itself contains a `font-family:"..."` pattern, the family rename rewrites
it: the input block's `font-weight` value is `font-family:"A" q`, the
patched stylesheet's is `font-family:"B" q`. -/
theorem claim_C1_counterexample :
    css2manifest ("@font-face \x7bfont-weight:font-family:\x22A\x22 q;\x7d".toList)
        (some ("B".toList)) none =
      .ok ([[("family", "B".toList), ("url", []), ("unicodeRange", []),
             ("fontWeight", "font-family:\x22A\x22 q".toList),
             ("fontStyle", "normal".toList), ("fontDisplay", "swap".toList)]],
           "@font-face \x7bfont-weight:font-family:\x22B\x22 q;\x7d".toList) ∧
    searchVal "font-weight"
        ("@font-face \x7bfont-weight:font-family:\x22A\x22 q;\x7d".toList) =
      some ("font-family:\x22A\x22 q".toList) ∧
    searchVal "font-weight"
        ("@font-face \x7bfont-weight:font-family:\x22B\x22 q;\x7d".toList) ≠
      searchVal "font-weight"
        ("@font-face \x7bfont-weight:font-family:\x22A\x22 q;\x7d".toList) :=
  ⟨rfl, rfl, by decide⟩

/-- Claim C1 (amended): for a canonical `@font-face` block whose declaration
values do not themselves contain the patched patterns (the `containsSub`
hypotheses say each pattern occurs only in its own declaration), patching
with a family rename and a size-adjust override preserves the
`unicode-range`, `font-weight`, `font-style` and `font-display` declaration
values exactly: the patched stylesheet is the same block with only the
family value replaced and a `size-adjust` declaration appended, and the four
declaration values extracted from input and output agree. -/
theorem claim_C1_amended (fam u ur w st d R V : List Char)
    (hfamne : fam ≠ []) (hfamq : ∀ c ∈ fam, (c != qc) = true)
    (hfamb : ∀ c ∈ fam, (c != braceC) = true)
    (hRne : R ≠ [])
    (hu7 : 7 ≤ u.length) (huq : ∀ c ∈ u, (c != qc) = true)
    (husuf : isPre (".woff2".toList.reverse) u.reverse = true)
    (huhttps : isPre ("https://".toList) u = true)
    (hub : ∀ c ∈ u, (c != braceC) = true)
    (hurne : ur ≠ []) (hurs : ∀ c ∈ ur, (c != ';') = true)
    (hurb : ∀ c ∈ ur, (c != braceC) = true)
    (hwne : w ≠ []) (hws : ∀ c ∈ w, (c != ';') = true)
    (hwb : ∀ c ∈ w, (c != braceC) = true)
    (hstne : st ≠ []) (hsts : ∀ c ∈ st, (c != ';') = true)
    (hstb : ∀ c ∈ st, (c != braceC) = true)
    (hdne : d ≠ []) (hds : ∀ c ∈ d, (c != ';') = true)
    (hdb : ∀ c ∈ d, (c != braceC) = true)
    (hVne : V ≠ [])
    (hskipUrl : containsSub ("url(\x22".toList) (preUrl fam ++ "url(".toList) = false)
    (hskipUR : containsSub ("unicode-range".toList ++ [':'])
      (preUR fam u ++ "unicode-range".toList) = false)
    (hskipW : containsSub ("font-weight".toList ++ [':'])
      (preW fam u ur ++ "font-weight".toList) = false)
    (hskipST : containsSub ("font-style".toList ++ [':'])
      (preST fam u ur w ++ "font-style".toList) = false)
    (hskipD : containsSub ("font-display".toList ++ [':'])
      (preD fam u ur w st ++ "font-display".toList) = false)
    (hskipUR2 : containsSub ("unicode-range".toList ++ [':'])
      (preUR R u ++ "unicode-range".toList) = false)
    (hskipW2 : containsSub ("font-weight".toList ++ [':'])
      (preW R u ur ++ "font-weight".toList) = false)
    (hskipST2 : containsSub ("font-style".toList ++ [':'])
      (preST R u ur w ++ "font-style".toList) = false)
    (hskipD2 : containsSub ("font-display".toList ++ [':'])
      (preD R u ur w st ++ "font-display".toList) = false)
    (hfamy : containsSub ("font-family:".toList ++ [qc])
      (famTail u ur w st d ++ [braceC]) = false)
    (hsize : containsSub ("size-adjust".toList ++ [':']) (blockC R u ur w st d) = false)
    (hascent : containsSub ("ascent-override".toList ++ [':'])
      (blockC fam u ur w st d) = false) :
    css2manifest (blockC fam u ur w st d) (some R) (some V) =
      .ok ([[("family", R), ("url", u), ("unicodeRange", pyReplace [' '] [] ur),
             ("fontWeight", pyStrip w), ("fontStyle", pyStrip st),
             ("fontDisplay", pyStrip d), ("sizeAdjust", V)]],
           blockCsize R u ur w st d V) ∧
    searchVal "unicode-range" (blockC fam u ur w st d) = some ur ∧
    searchVal "font-weight" (blockC fam u ur w st d) = some w ∧
    searchVal "font-style" (blockC fam u ur w st d) = some st ∧
    searchVal "font-display" (blockC fam u ur w st d) = some d ∧
    searchVal "unicode-range" (blockCsize R u ur w st d V) = some ur ∧
    searchVal "font-weight" (blockCsize R u ur w st d V) = some w ∧
    searchVal "font-style" (blockCsize R u ur w st d V) = some st ∧
    searchVal "font-display" (blockCsize R u ur w st d V) = some d := by
  refine ⟨css2manifest_blockC fam u ur w st d R V hfamne hfamq hfamb hRne hu7 huq husuf
    huhttps hub hurne hurs hurb hwne hws hwb hstne hsts hstb hdne hds hdb hVne
    hskipUrl hskipUR hskipW hskipST hskipD hfamy hsize hascent, ?_, ?_, ?_, ?_, ?_, ?_, ?_, ?_⟩
  · exact searchVal_shape "unicode-range" (preUR fam u) ur
      (("font-weight".toList ++ [':']) ++ w ++ [';'] ++
       ("font-style".toList ++ [':']) ++ st ++ [';'] ++
       ("font-display".toList ++ [':']) ++ d ++ [';'] ++ [braceC]) _
      (by simp [blockC, famTail, preUR, List.append_assoc]) hskipUR hurne hurs
  · exact searchVal_shape "font-weight" (preW fam u ur) w
      (("font-style".toList ++ [':']) ++ st ++ [';'] ++
       ("font-display".toList ++ [':']) ++ d ++ [';'] ++ [braceC]) _
      (by simp [blockC, famTail, preUR, preW, List.append_assoc]) hskipW hwne hws
  · exact searchVal_shape "font-style" (preST fam u ur w) st
      (("font-display".toList ++ [':']) ++ d ++ [';'] ++ [braceC]) _
      (by simp [blockC, famTail, preUR, preW, preST, List.append_assoc]) hskipST hstne hsts
  · exact searchVal_shape "font-display" (preD fam u ur w st) d [braceC] _
      (by simp [blockC, famTail, preUR, preW, preST, preD, List.append_assoc])
      hskipD hdne hds
  · exact searchVal_shape "unicode-range" (preUR R u) ur
      (("font-weight".toList ++ [':']) ++ w ++ [';'] ++
       ("font-style".toList ++ [':']) ++ st ++ [';'] ++
       ("font-display".toList ++ [':']) ++ d ++ [';'] ++
       ("size-adjust".toList ++ [':']) ++ V ++ [';'] ++ [braceC]) _
      (by simp [blockCsize, famTail, preUR, List.append_assoc]) hskipUR2 hurne hurs
  · exact searchVal_shape "font-weight" (preW R u ur) w
      (("font-style".toList ++ [':']) ++ st ++ [';'] ++
       ("font-display".toList ++ [':']) ++ d ++ [';'] ++
       ("size-adjust".toList ++ [':']) ++ V ++ [';'] ++ [braceC]) _
      (by simp [blockCsize, famTail, preUR, preW, List.append_assoc]) hskipW2 hwne hws
  · exact searchVal_shape "font-style" (preST R u ur w) st
      (("font-display".toList ++ [':']) ++ d ++ [';'] ++
       ("size-adjust".toList ++ [':']) ++ V ++ [';'] ++ [braceC]) _
      (by simp [blockCsize, famTail, preUR, preW, preST, List.append_assoc])
      hskipST2 hstne hsts
  · exact searchVal_shape "font-display" (preD R u ur w st) d
      (("size-adjust".toList ++ [':']) ++ V ++ [';'] ++ [braceC]) _
      (by simp [blockCsize, famTail, preUR, preW, preST, preD, List.append_assoc])
      hskipD2 hdne hds

/-- Witness for the amended C1 at a concrete canonical block: family
`Alpha`, remote woff2 url, CJK unicode range, weight 400, renamed to
`zhuque` with size-adjust `125%`. -/
theorem claim_C1_witness :
    css2manifest
        (blockC ("Alpha".toList) ("https://fonts.example/f1.woff2".toList)
          ("U+4E00-4FFF".toList) ("400".toList) ("normal".toList) ("swap".toList))
        (some ("zhuque".toList)) (some ("125%".toList)) =
      .ok ([[("family", "zhuque".toList), ("url", "https://fonts.example/f1.woff2".toList),
             ("unicodeRange", pyReplace [' '] [] ("U+4E00-4FFF".toList)),
             ("fontWeight", pyStrip ("400".toList)), ("fontStyle", pyStrip ("normal".toList)),
             ("fontDisplay", pyStrip ("swap".toList)), ("sizeAdjust", "125%".toList)]],
           blockCsize ("zhuque".toList) ("https://fonts.example/f1.woff2".toList)
             ("U+4E00-4FFF".toList) ("400".toList) ("normal".toList) ("swap".toList)
             ("125%".toList)) :=
  (claim_C1_amended ("Alpha".toList) ("https://fonts.example/f1.woff2".toList)
    ("U+4E00-4FFF".toList) ("400".toList) ("normal".toList) ("swap".toList)
    ("zhuque".toList) ("125%".toList)
    (by decide) (by decide) (by decide) (by decide) (by decide) (by decide)
    (by decide) (by decide) (by decide) (by decide) (by decide) (by decide)
    (by decide) (by decide) (by decide) (by decide) (by decide) (by decide)
    (by decide) (by decide) (by decide) (by decide) (by decide) (by decide)
    (by decide) (by decide) (by decide) (by decide) (by decide) (by decide)
    (by decide) (by decide) (by decide) (by decide)).1

/-! ## Claim C2 — counterexample -/

/-- Claim C2 (counterexample): with two blocks of families `A` and `B` and
rename override `C`, css2manifest rewrites the family of both blocks —
whichever of the two counts as "the family being renamed", the block of the
other family is not left textually unaffected: neither original block
survives in the patched stylesheet. -/
theorem claim_C2_counterexample :
    css2manifest
        ("@font-face \x7bfont-family:\x22A\x22;\x7d@font-face \x7bfont-family:\x22B\x22;\x7d".toList)
        (some ("C".toList)) none =
      .ok ([[("family", "C".toList), ("url", []), ("unicodeRange", []),
             ("fontWeight", "normal".toList), ("fontStyle", "normal".toList),
             ("fontDisplay", "swap".toList)],
            [("family", "C".toList), ("url", []), ("unicodeRange", []),
             ("fontWeight", "normal".toList), ("fontStyle", "normal".toList),
             ("fontDisplay", "swap".toList)]],
           "@font-face \x7bfont-family:\x22C\x22;\x7d@font-face \x7bfont-family:\x22C\x22;\x7d".toList) ∧
    containsSub ("@font-face \x7bfont-family:\x22B\x22;\x7d".toList)
        ("@font-face \x7bfont-family:\x22A\x22;\x7d@font-face \x7bfont-family:\x22B\x22;\x7d".toList) = true ∧
    containsSub ("@font-face \x7bfont-family:\x22B\x22;\x7d".toList)
        ("@font-face \x7bfont-family:\x22C\x22;\x7d@font-face \x7bfont-family:\x22C\x22;\x7d".toList) = false ∧
    containsSub ("@font-face \x7bfont-family:\x22A\x22;\x7d".toList)
        ("@font-face \x7bfont-family:\x22C\x22;\x7d@font-face \x7bfont-family:\x22C\x22;\x7d".toList) = false :=
  ⟨rfl, by decide, by decide, by decide⟩

/-- Claim C2 (amended): the rename is global: in a block whose (unique)
`font-family` declaration carries any family `fam`, the family patch
rewrites that declaration's value to the override `R` — regardless of which
family the block belonged to — and changes nothing else in the block; the
patched block's extracted family is `R`. -/
theorem claim_C2_amended (x fam y R : List Char)
    (hx : containsSub ("font-family:\x22".toList) (x ++ "font-family:".toList) = false)
    (hfam : fam ≠ []) (hfq : ∀ c ∈ fam, (c != qc) = true)
    (hy : containsSub ("font-family:\x22".toList) y = false)
    (hR : R ≠ []) (hRq : ∀ c ∈ R, (c != qc) = true) :
    patch_family R (x ++ (("font-family:\x22".toList ++ fam ++ [qc]) ++ y)) =
      x ++ (("font-family:\x22".toList ++ R ++ [qc]) ++ y) ∧
    searchFamily (x ++ (("font-family:\x22".toList ++ R ++ [qc]) ++ y)) = some R := by
  have hlit : "font-family:\x22".toList = "font-family:".toList ++ [qc] := by decide
  have hdl : ("font-family:".toList ++ [qc]).dropLast = "font-family:".toList := by decide
  have hne : ("font-family:".toList ++ [qc]) ≠ [] := by decide
  constructor
  · unfold patch_family
    have hsub := subAll_single_lct ("font-family:".toList ++ [qc]) qc x fam y
      ("font-family:".toList ++ qc :: R ++ [qc]) hne (by rw [hdl, ← hlit]; exact hx)
      hfam hfq (by rw [← hlit]; exact hy)
    rw [hlit]
    rw [hsub]
    simp [List.append_assoc]
  · unfold searchFamily
    have hscan := scanFirst_single_lct ("font-family:".toList ++ [qc]) qc x R y
      hne (by rw [hdl, ← hlit]; exact hx) hR hRq
    rw [hlit, hscan]
    rfl

/-- Witness for the amended C2 at a concrete block of family `Alpha`
renamed to `zhuque`. -/
theorem claim_C2_witness :
    patch_family ("zhuque".toList)
        ("@font-face \x7b".toList ++
          (("font-family:\x22".toList ++ "Alpha".toList ++ [qc]) ++ ";\x7d".toList)) =
      "@font-face \x7b".toList ++
        (("font-family:\x22".toList ++ "zhuque".toList ++ [qc]) ++ ";\x7d".toList) ∧
    searchFamily ("@font-face \x7b".toList ++
        (("font-family:\x22".toList ++ "zhuque".toList ++ [qc]) ++ ";\x7d".toList)) =
      some ("zhuque".toList) :=
  claim_C2_amended ("@font-face \x7b".toList) ("Alpha".toList) (";\x7d".toList)
    ("zhuque".toList) (by decide) (by decide) (by decide) (by decide) (by decide)
    (by decide)

/-! ## Claim C3 — counterexample -/

/-- Claim C3 (counterexample): the block `@font-face {size-adjust:x}`
contains no well-formed `size-adjust` declaration (`scanAll ... = []`), yet
with an override the patched output gains none: the substring test
`'size-adjust:' in block` succeeds, so the code takes the substitution
branch, whose pattern requires a `;` and matches nothing — the block is
returned unchanged, with no declaration carrying the override. -/
theorem claim_C3_counterexample :
    scanAll (litCapTermAt ("size-adjust:".toList) ';')
        ("@font-face \x7bsize-adjust:x\x7d".toList) = [] ∧
    css2manifest ("@font-face \x7bsize-adjust:x\x7d".toList) none (some ("9".toList)) =
      .ok ([[("family", "UnknownFamily".toList), ("url", []), ("unicodeRange", []),
             ("fontWeight", "normal".toList), ("fontStyle", "normal".toList),
             ("fontDisplay", "swap".toList), ("sizeAdjust", "9".toList)]],
           "@font-face \x7bsize-adjust:x\x7d".toList) ∧
    scanAll (litCapTermAt ("size-adjust:".toList) ';')
        ("@font-face \x7bsize-adjust:x\x7d".toList) ≠ ["9".toList] :=
  ⟨rfl, rfl, by decide⟩

/-- Claim C3 (amended): the size-adjust patch tests for the substring
`size-adjust:`. When it is absent (first two conjuncts), exactly one
well-formed declaration carrying the override is inserted before the
closing brace. When a unique well-formed declaration `size-adjust:w;` is
present (third conjunct), only its value is replaced; the rest of the block
is identical. (A block containing the substring but no well-formed
declaration falls into neither case and is returned unchanged — the
counterexample.) -/
theorem claim_C3_amended (b V x w y : List Char)
    (ha1 : containsSub ("size-adjust:".toList) (b ++ [braceC]) = false)
    (ha2 : containsSub ("size-adjust:".toList) (b ++ "size-adjust".toList) = false)
    (hV : V ≠ []) (hVs : ∀ c ∈ V, (c != ';') = true)
    (hb1 : containsSub ("size-adjust:".toList) (x ++ "size-adjust".toList) = false)
    (hw : w ≠ []) (hws : ∀ c ∈ w, (c != ';') = true)
    (hy : containsSub ("size-adjust:".toList) y = false) :
    patch_size V (b ++ [braceC]) =
      b ++ (("size-adjust:".toList ++ V ++ [';']) ++ [braceC]) ∧
    scanAll (litCapTermAt ("size-adjust:".toList) ';')
        (b ++ (("size-adjust:".toList ++ V ++ [';']) ++ [braceC])) = [V] ∧
    patch_size V (x ++ (("size-adjust:".toList ++ w ++ [';']) ++ y)) =
      x ++ (("size-adjust:".toList ++ V ++ [';']) ++ y) := by
  have hdl : ("size-adjust:".toList).dropLast = "size-adjust".toList := by decide
  have hne : ("size-adjust:".toList) ≠ [] := by decide
  refine ⟨?_, ?_, ?_⟩
  · unfold patch_size
    rw [ha1]
    simp [List.dropLast_concat, List.append_assoc]
  · exact scanAll_single_lct _ ';' b V [braceC] hne (by rw [hdl]; exact ha2) hV hVs
      (by decide)
  · have htest : containsSub ("size-adjust:".toList)
        (x ++ (("size-adjust:".toList ++ w ++ [';']) ++ y)) = true := by
      apply containsSub_of_occursAt _ _ x.length
      unfold occursAt
      rw [List.drop_left]
      have hsh : ("size-adjust:".toList ++ w ++ [';']) ++ y =
          "size-adjust:".toList ++ (w ++ [';'] ++ y) := by
        simp [List.append_assoc]
      rw [hsh]
      exact isPre_append _ _
    unfold patch_size
    rw [htest]
    simp only [if_true]
    exact subAll_single_lct _ ';' x w y _ hne (by rw [hdl]; exact hb1) hw hws hy

/-- Witness for the amended C3: insertion into
`@font-face {font-weight:400;}` and value replacement in
`@font-face {size-adjust:100%;}`, both with override `125%`. -/
theorem claim_C3_witness :
    patch_size ("125%".toList) ("@font-face \x7bfont-weight:400;".toList ++ [braceC]) =
      "@font-face \x7bfont-weight:400;".toList ++
        (("size-adjust:".toList ++ "125%".toList ++ [';']) ++ [braceC]) ∧
    scanAll (litCapTermAt ("size-adjust:".toList) ';')
        ("@font-face \x7bfont-weight:400;".toList ++
          (("size-adjust:".toList ++ "125%".toList ++ [';']) ++ [braceC])) =
      ["125%".toList] ∧
    patch_size ("125%".toList)
        ("@font-face \x7b".toList ++
          (("size-adjust:".toList ++ "100%".toList ++ [';']) ++ "\x7d".toList)) =
      "@font-face \x7b".toList ++
        (("size-adjust:".toList ++ "125%".toList ++ [';']) ++ "\x7d".toList) :=
  claim_C3_amended ("@font-face \x7bfont-weight:400;".toList) ("125%".toList)
    ("@font-face \x7b".toList) ("100%".toList) ("\x7d".toList)
    (by decide) (by decide) (by decide) (by decide) (by decide) (by decide)
    (by decide) (by decide)

/-! ## Claim C4 — counterexample, amended claim and witness -/

/-- Claim C4 (counterexample): in a block with no declarations at all, the
non-defaulted fields are not absent from the record: `family` is present
with the placeholder `UnknownFamily`, and `url` and `unicodeRange` are
present with empty values. -/
theorem claim_C4_counterexample :
    css2manifest ("@font-face \x7b\x7d".toList) none none =
      .ok ([[("family", "UnknownFamily".toList), ("url", []), ("unicodeRange", []),
             ("fontWeight", "normal".toList), ("fontStyle", "normal".toList),
             ("fontDisplay", "swap".toList)]],
           "@font-face \x7b\x7d".toList) ∧
    List.lookup "url"
        (parse_block none none ("@font-face \x7b\x7d".toList)) = some ([] : List Char) ∧
    List.lookup "family"
        (parse_block none none ("@font-face \x7b\x7d".toList)) =
      some ("UnknownFamily".toList) :=
  ⟨rfl, rfl, rfl⟩

/-- Claim C4 (amended): with no overrides, a block whose declarations are
all missing parses — with no error — to a record that still carries the
`family`, `url` and `unicodeRange` keys (with `UnknownFamily` and empty
values), uses the defaults `normal`, `normal`, `swap` for weight, style and
display, and omits only `sizeAdjust` and `ascentOverride`. -/
theorem claim_C4_amended (block : List Char)
    (hf : searchFamily block = none) (hu : searchUrl block = none)
    (hur : searchVal "unicode-range" block = none)
    (hw : searchVal "font-weight" block = none)
    (hst : searchVal "font-style" block = none)
    (hd : searchVal "font-display" block = none)
    (hsa : searchVal "size-adjust" block = none)
    (hao : searchVal "ascent-override" block = none) :
    parse_block none none block =
      [("family", "UnknownFamily".toList), ("url", []), ("unicodeRange", []),
       ("fontWeight", "normal".toList), ("fontStyle", "normal".toList),
       ("fontDisplay", "swap".toList)] := by
  unfold parse_block
  rw [hf, hu, hur, hw, hst, hd, hsa, hao]
  rfl

/-- Witness for the amended C4 at the concrete block `@font-face { }`. -/
theorem claim_C4_witness :
    parse_block none none ("@font-face \x7b \x7d".toList) =
      [("family", "UnknownFamily".toList), ("url", []), ("unicodeRange", []),
       ("fontWeight", "normal".toList), ("fontStyle", "normal".toList),
       ("fontDisplay", "swap".toList)] :=
  claim_C4_amended ("@font-face \x7b \x7d".toList) rfl rfl rfl rfl rfl rfl rfl rfl

/-! ## Claim C5 — counterexample -/

/-- Claim C5 (counterexample): for a remote stylesheet URL whose last
component is not `result.css`, the code's prefix (`css_url.replace
('result.css', '')`, which removes nothing here) differs from the URL's own
directory as the claim states it: the rewritten text keeps the full URL,
`styles.css` included, in front of the relative asset path. -/
theorem claim_C5_counterexample :
    fetch_css_remote ("https://h/styles.css".toList) ("url(\x22./a.woff2\x22)x".toList) =
      "url(\x22https://h/styles.cssa.woff2\x22)x".toList ∧
    spec_fetch_remote ("https://h/styles.css".toList) ("url(\x22./a.woff2\x22)x".toList) =
      "url(\x22https://h/a.woff2\x22)x".toList ∧
    fetch_css_remote ("https://h/styles.css".toList) ("url(\x22./a.woff2\x22)x".toList) ≠
      spec_fetch_remote ("https://h/styles.css".toList) ("url(\x22./a.woff2\x22)x".toList) :=
  ⟨rfl, rfl, by decide⟩

/-! ## Claim C5 — amended claim and witness -/
theorem partsPre_append (o r : List (List Char)) : partsPre o (o ++ r) = true := by
  induction o with
  | nil => rfl
  | cons x xs ih => simp [partsPre, ih]

/-- Claim C5 (amended): the remote prefix is `css_url.replace('result.css', '')`
— for a URL of the form `base ++ "result.css"` with no other occurrence of
`result.css` it equals `base` (the URL's directory when `base` ends in `/`);
the rewrite replaces every `url("./` occurrence with `url("` followed by the
prefix; a local source's prefix is `'./' + str(rel_dir) + '/'` where
`rel_dir` is the stylesheet's directory relative to the project root, and
the backslash-to-slash replacement leaves the already forward-slashed
rendering unchanged. -/
theorem claim_C5_amended (base pre a b : List Char) (o r : List (List Char))
    (hbase : containsSub ("result.css".toList) (base ++ "result.cs".toList) = false)
    (ha1 : containsSub ("url(\x22./".toList) (a ++ "url(\x22.".toList) = false)
    (ha2 : containsSub ("url(\x27./".toList) (a ++ "url(\x22.".toList) = false)
    (hb1 : containsSub ("url(\x22./".toList) b = false)
    (hb2 : containsSub ("url(\x27./".toList) b = false)
    (hnb : containsSub [bslash] (("./".toList ++ joinSlash r) ++ "/".toList) = false) :
    abs_prefix_remote (base ++ "result.css".toList) = base ∧
    fetch_rewrite pre (a ++ ("url(\x22./".toList ++ b)) =
      a ++ (("url(\x22".toList ++ pre) ++ b) ∧
    relative_to_parts (o ++ r) o = some r ∧
    abs_prefix_local r = ("./".toList ++ joinSlash r) ++ "/".toList := by
  refine ⟨?_, ?_, ?_, ?_⟩
  · -- remote prefix: remove the single occurrence of `result.css`
    have hskip : ∀ p, p < base.length →
        litAt ("result.css".toList) ((base ++ ("result.css".toList ++ [])).drop p) = none := by
      intro p hp
      apply matcher_none_drop _ ("result.css".toList) (base ++ "result.cs".toList) _
        (litAt_req ("result.css".toList))
        (isPre_app_both base _ _ (by decide)) hbase
      simp [List.length_append]
      omega
    have e1 : subAll (litAt ("result.css".toList)) []
        (base ++ ("result.css".toList ++ [])) =
        base ++ ([] ++ subAll (litAt ("result.css".toList)) [] []) := by
      rw [subAll_app_none _ _ base _ hskip]
      rw [subAll_hit _ _ ("result.css".toList) [] ("result.css".toList) (by decide)
        (litAt_hit ("result.css".toList) [] (by decide))]
    unfold abs_prefix_remote pyReplace
    rw [show base ++ "result.css".toList = base ++ ("result.css".toList ++ []) from by simp]
    rw [e1]
    simp only [List.nil_append]
    rw [show subAll (litAt ("result.css".toList)) [] [] = [] from rfl]
    simp
  · -- rewrite of a relative asset url
    have hskip : ∀ p, p < a.length →
        relUrlAt ((a ++ ("url(\x22./".toList ++ b)).drop p) = none := by
      intro p hp
      have hfit : p + 7 ≤ (a ++ "url(\x22.".toList).length := by
        simp [List.length_append]; omega
      have hpre : isPre (a ++ "url(\x22.".toList) (a ++ ("url(\x22./".toList ++ b)) = true :=
        isPre_app_both a _ _ (by
          have hsp : "url(\x22./".toList = "url(\x22.".toList ++ ['/'] := by decide
          rw [hsp, List.append_assoc]
          exact isPre_append _ _)
      apply relUrlAt_req
      · have h1 := not_occursAt_of_prefix ("url(\x22./".toList) (a ++ "url(\x22.".toList) _ p
          hpre ha1 (by simpa using hfit)
        simpa [occursAt] using h1
      · have h2 := not_occursAt_of_prefix ("url(\x27./".toList) (a ++ "url(\x22.".toList) _ p
          hpre ha2 (by simpa using hfit)
        simpa [occursAt] using h2
    have hhit : relUrlAt ("url(\x22./".toList ++ b) =
        some (("url(\x22./".toList).length, "url(\x22./".toList) := by
      unfold relUrlAt
      rw [isPre_append]
      simp [List.take_left' (by decide : ("url(\x22./".toList).length = 7)]
    have hcont : ∀ p, p < b.length → relUrlAt (b.drop p) = none := by
      intro p hp
      apply relUrlAt_req
      · by_contra hocc
        rw [Bool.not_eq_false] at hocc
        have : occursAt ("url(\x22./".toList) b p = true := hocc
        rw [containsSub_of_occursAt _ _ _ this] at hb1
        cases hb1
      · by_contra hocc
        rw [Bool.not_eq_false] at hocc
        have : occursAt ("url(\x27./".toList) b p = true := hocc
        rw [containsSub_of_occursAt _ _ _ this] at hb2
        cases hb2
    unfold fetch_rewrite
    rw [subAll_app_none _ _ a _ hskip]
    rw [subAll_hit _ _ ("url(\x22./".toList) b _ (by decide) hhit]
    rw [subAll_none _ _ b hcont]
  · unfold relative_to_parts
    rw [partsPre_append]
    simp
  · unfold abs_prefix_local pyReplace
    apply subAll_none
    intro p hp
    apply litAt_req
    by_contra hocc
    rw [Bool.not_eq_false] at hocc
    have : occursAt [bslash] (("./".toList ++ joinSlash r) ++ "/".toList) p = true := hocc
    rw [containsSub_of_occursAt _ _ _ this] at hnb
    cases hnb

/-- Witness for the amended C5 at the project's real font CDN URL shape and
a local font directory. -/
theorem claim_C5_witness :
    abs_prefix_remote ("https://fontsapi.zeoseven.com/81/main/".toList ++
        "result.css".toList) = "https://fontsapi.zeoseven.com/81/main/".toList ∧
    fetch_rewrite ("https://fontsapi.zeoseven.com/81/main/".toList)
        ("p \x7bcolor:red;\x7d ".toList ++ ("url(\x22./".toList ++ "f1.woff2\x22);".toList)) =
      "p \x7bcolor:red;\x7d ".toList ++
        (("url(\x22".toList ++ "https://fontsapi.zeoseven.com/81/main/".toList) ++
          "f1.woff2\x22);".toList) ∧
    relative_to_parts (["client".toList, "fonts".toList] ++ ["KingHwa_OldSong".toList])
        ["client".toList, "fonts".toList] = some ["KingHwa_OldSong".toList] ∧
    abs_prefix_local ["KingHwa_OldSong".toList] =
      ("./".toList ++ joinSlash ["KingHwa_OldSong".toList]) ++ "/".toList :=
  claim_C5_amended ("https://fontsapi.zeoseven.com/81/main/".toList)
    ("https://fontsapi.zeoseven.com/81/main/".toList)
    ("p \x7bcolor:red;\x7d ".toList) ("f1.woff2\x22);".toList)
    (["client".toList, "fonts".toList]) (["KingHwa_OldSong".toList])
    (by decide) (by decide) (by decide) (by decide) (by decide) (by decide)

/-! ## Claim C8 — counterexample and amended claim -/
theorem joinDot_cons_head (c : Char) (h : List Char) (r : List (List Char)) :
    joinDot ((c :: h) :: r) = c :: joinDot (h :: r) := by
  cases r <;> rfl

theorem pySplit_ne_nil (sep : Char) (s : List Char) : pySplit sep s ≠ [] := by
  cases s with
  | nil => simp [pySplit]
  | cons c t =>
    unfold pySplit
    by_cases h : c == sep
    · simp [h]
    · simp [h]
      cases hp : pySplit sep t with
      | nil => simp
      | cons x r => simp

theorem joinDot_pySplit (s : List Char) : joinDot (pySplit '.' s) = s := by
  induction s with
  | nil => rfl
  | cons c t ih =>
    unfold pySplit
    by_cases h : c = '.'
    · subst h
      simp only [beq_self_eq_true, if_true]
      cases hp : pySplit '.' t with
      | nil => exact absurd hp (pySplit_ne_nil '.' t)
      | cons x r =>
        rw [show joinDot ([] :: x :: r) = [] ++ '.' :: joinDot (x :: r) from rfl]
        rw [← hp, ih]
        rfl
    · have hb : (c == '.') = false := by simp [h]
      simp only [hb, Bool.false_eq_true, if_false]
      cases hp : pySplit '.' t with
      | nil => exact absurd hp (pySplit_ne_nil '.' t)
      | cons x r =>
        rw [joinDot_cons_head]
        rw [← hp, ih]

theorem pySplit_no_sep (sep : Char) (g : List Char) (h : sep ∉ g) :
    pySplit sep g = [g] := by
  induction g with
  | nil => rfl
  | cons c t ih =>
    unfold pySplit
    have hc : (c == sep) = false := by
      simp only [beq_eq_false_iff_ne, ne_eq]
      intro he
      exact h (by simp [he])
    simp only [hc, Bool.false_eq_true, if_false]
    rw [ih (fun hm => h (by simp [hm]))]

theorem pySplit_cons (sep c : Char) (t : List Char) :
    pySplit sep (c :: t) =
      if c == sep then [] :: pySplit sep t
      else
        match pySplit sep t with
        | h :: r => (c :: h) :: r
        | [] => [[c]] := rfl

theorem pySplit_app_sep (sep : Char) (g rest : List Char) (h : sep ∉ g) :
    pySplit sep (g ++ sep :: rest) = g :: pySplit sep rest := by
  induction g with
  | nil => simp [pySplit]
  | cons c t ih =>
    have hc : (c == sep) = false := by
      simp only [beq_eq_false_iff_ne, ne_eq]
      intro he
      exact h (by simp [he])
    rw [List.cons_append, pySplit_cons, hc]
    simp only [Bool.false_eq_true, if_false]
    rw [ih (fun hm => h (by simp [hm]))]

/-- Claim C8 (counterexample): the superscript two `²` (U+00B2) satisfies
`str.isdigit`, so validation accepts it, though it does not match
`^\d+(\.\d+)*$` — `\d` covers only decimal digits (category Nd). -/
theorem claim_C8_counterexample :
    validate_version_str "²" = true ∧ ¬ SpecVer "²" := by
  constructor
  · decide
  · rintro ⟨gs, hne, hall, heq⟩
    cases gs with
    | nil => exact hne rfl
    | cons g rest =>
      cases rest with
      | nil =>
        have hg := hall g (by simp)
        rw [show joinDot [g] = g from rfl] at heq
        have hmem : Char.ofNat 178 ∈ g := by
          rw [← heq]
          decide
        have := hg.2 (Char.ofNat 178) hmem
        exact absurd this (by decide)
      | cons h t =>
        have hgne := (hall g (by simp)).1
        have hlen := congrArg List.length heq
        rw [show joinDot (g :: h :: t) = g ++ '.' :: joinDot (h :: t) from rfl] at hlen
        simp [List.length_append] at hlen
        cases g with
        | nil => exact hgne rfl
        | cons a b =>
          simp at hlen
          omega

/-- Claim C8 (amended): validation accepts `v` exactly when `v` is one or
more runs of Python-`isdigit` characters separated by single dots — the
same shape as the claim's regex but over the broader `isdigit` class (which
additionally contains `Numeric_Type=Digit` characters such as `²`). -/
theorem claim_C8_amended (v : String) :
    validate_version_str v = true ↔
      ∃ gs : List (List Char), gs ≠ [] ∧
        (∀ g ∈ gs, g ≠ [] ∧ ∀ c ∈ g, pyIsdigitChar c = true) ∧
        v.toList = joinDot gs := by
  unfold validate_version_str
  constructor
  · intro hv
    refine ⟨pySplit '.' v.toList, pySplit_ne_nil '.' v.toList, ?_, (joinDot_pySplit v.toList).symm⟩
    intro g hg
    have := (List.all_eq_true.1 hv) g hg
    simp only [pyIsdigitStr, Bool.and_eq_true, Bool.not_eq_true', List.isEmpty_iff] at this
    rcases this with ⟨h1, h2⟩
    refine ⟨by simpa [List.isEmpty_iff] using h1, ?_⟩
    intro c hc
    exact (List.all_eq_true.1 h2) c hc
  · rintro ⟨gs, hne, hall, heq⟩
    rw [heq]
    have hsplit : pySplit '.' (joinDot gs) = gs := by
      clear heq
      induction gs with
      | nil => exact absurd rfl hne
      | cons g rest ih =>
        have hgdot : '.' ∉ g := by
          intro hm
          have := (hall g (by simp)).2 '.' hm
          exact absurd this (by decide)
        cases rest with
        | nil =>
          rw [show joinDot [g] = g from rfl]
          exact pySplit_no_sep '.' g hgdot
        | cons h t =>
          rw [show joinDot (g :: h :: t) = g ++ '.' :: joinDot (h :: t) from rfl]
          rw [pySplit_app_sep '.' g _ hgdot]
          rw [ih (by simp) (fun g2 hg2 => hall g2 (by simp [hg2]))]
    rw [hsplit]
    rw [List.all_eq_true]
    intro g hg
    rcases hall g hg with ⟨h1, h2⟩
    simp only [pyIsdigitStr, Bool.and_eq_true, Bool.not_eq_true', List.isEmpty_iff]
    refine ⟨by simpa [List.isEmpty_iff] using h1, List.all_eq_true.2 h2⟩

/-! ## Claim C9 — counterexample, amended theorem and witness -/

/-- Counterexample to C9 as stated: the subsetter the script executes is
`subset_font` (line 159; the guarded `subset_font_with_extra_chars` call
at line 158 is commented out), and on a concrete font with `glyf` and
`head` tables but no `cmap` it does not take any error path — it hands the
requested characters to the library and an output font is saved. -/
theorem claim_C9_counterexample :
    (TTFontM.mk ["glyf", "head"] []).tables.contains "cmap" = false ∧
    subset_font (TTFontM.mk ["glyf", "head"] []) ['a'] ≠ .errorNoCmap ∧
    subset_font (TTFontM.mk ["glyf", "head"] []) ['a'] =
      .saved (fun n => ((['a'] : List Char).map Char.toNat).contains n) :=
  ⟨by decide, fun h => SubsetOutcome.noConfusion h, rfl⟩

/-- C9 amended: the missing-`cmap` guard exists only in the unused helper
`subset_font_with_extra_chars` (lines 43–46), which reports the diagnostic
and returns without producing an output font; the subsetter the program
actually runs, `subset_font`, performs no such check and for the same
`cmap`-less font still passes the requested character set to the library
subsetter and saves an output font (the library, at the defaults used
here, only logs characters it cannot map). -/
theorem claim_C9_amended (font : TTFontM) (extra needed : List Char)
    (h : font.tables.contains "cmap" = false) :
    subset_font_with_extra_chars font extra = .errorNoCmap ∧
    subset_font font needed =
      .saved (fun n => (needed.map Char.toNat).contains n) := by
  constructor
  · unfold subset_font_with_extra_chars
    rw [h]
    rfl
  · rfl

/-- Witness for C9: a concrete font with `glyf` and `head` tables but no
`cmap`, one extra character for the helper and one requested character for
the executed subsetter. -/
theorem claim_C9_witness :
    (TTFontM.mk ["glyf", "head"] []).tables.contains "cmap" = false ∧
    (subset_font_with_extra_chars (TTFontM.mk ["glyf", "head"] []) [] =
        .errorNoCmap ∧
      subset_font (TTFontM.mk ["glyf", "head"] []) ['b'] =
        .saved (fun n => ((['b'] : List Char).map Char.toNat).contains n)) :=
  ⟨by decide, claim_C9_amended (TTFontM.mk ["glyf", "head"] []) [] ['b']
    (by decide)⟩


theorem jget_pyDictSet_same (k : String) (v : J) (d : List (String × J)) :
    jget k (pyDictSet k v d) = some v := by
  induction d with
  | nil => simp [pyDictSet, jget]
  | cons p r ih =>
    obtain ⟨k2, w⟩ := p
    unfold pyDictSet
    by_cases h : k2 = k
    · simp [jget, h]
    · simp [jget, h, ih]

theorem jget_pyDictSet_other (k k' : String) (v : J) (d : List (String × J))
    (h : k' ≠ k) : jget k' (pyDictSet k v d) = jget k' d := by
  have hkk : ¬ k = k' := fun he => h he.symm
  induction d with
  | nil =>
    unfold pyDictSet jget
    simp [hkk]
    rfl
  | cons p r ih =>
    obtain ⟨k2, w⟩ := p
    unfold pyDictSet
    by_cases h2 : k2 = k
    · subst h2
      unfold jget
      simp [hkk]
    · simp only [h2, if_false]
      unfold jget
      by_cases h3 : k2 = k'
      · simp [h3]
      · simp [h3, ih]

theorem jget_none_iff (k : String) (d : List (String × J)) :
    jget k d = none ↔ k ∉ d.map Prod.fst := by
  induction d with
  | nil => simp [jget]
  | cons p r ih =>
    obtain ⟨k2, w⟩ := p
    unfold jget
    by_cases h : k2 = k
    · subst h
      simp
    · have h' : ¬ k = k2 := fun he => h he.symm
      simp [h, h', ih]

theorem jget_some_of_mem (k : String) (v : J) (d : List (String × J))
    (hnd : (d.map Prod.fst).Nodup) (hm : (k, v) ∈ d) : jget k d = some v := by
  induction d with
  | nil => simp at hm
  | cons p r ih =>
    obtain ⟨k2, w⟩ := p
    simp only [List.map_cons, List.nodup_cons] at hnd
    rcases List.mem_cons.1 hm with h | h
    · cases h
      simp [jget]
    · have hk2 : k2 ≠ k := by
        intro he
        subst he
        exact hnd.1 (by simpa using List.mem_map_of_mem Prod.fst h)
      unfold jget
      simp only [hk2, if_false]
      exact ih hnd.2 h

theorem mem_of_jget_some (k : String) (v : J) (d : List (String × J))
    (h : jget k d = some v) : (k, v) ∈ d := by
  induction d with
  | nil => simp [jget] at h
  | cons p r ih =>
    obtain ⟨k2, w⟩ := p
    unfold jget at h
    by_cases h2 : k2 = k
    · subst h2
      simp at h
      simp [h]
    · simp only [h2, if_false] at h
      exact List.mem_cons.2 (Or.inr (ih h))

theorem jget_eq_of_perm (k : String) (l l' : List (String × J))
    (hp : l.Perm l') (hnd : (l.map Prod.fst).Nodup) :
    jget k l = jget k l' := by
  have hnd' : (l'.map Prod.fst).Nodup := ((hp.map Prod.fst).nodup_iff).1 hnd
  cases hv : jget k l with
  | some v =>
    exact (jget_some_of_mem k v l' hnd' (hp.mem_iff.1 (mem_of_jget_some k v l hv))).symm
  | none =>
    rw [jget_none_iff] at hv
    have hnm : k ∉ l'.map Prod.fst := fun hm => hv ((hp.map Prod.fst).mem_iff.2 hm)
    exact ((jget_none_iff k l').2 hnm).symm

theorem map_fst_pyDictSet (k : String) (v : J) (d : List (String × J)) :
    (pyDictSet k v d).map Prod.fst =
      if (jget k d).isSome then d.map Prod.fst else d.map Prod.fst ++ [k] := by
  induction d with
  | nil => simp [pyDictSet, jget]
  | cons p r ih =>
    obtain ⟨k2, w⟩ := p
    unfold pyDictSet jget
    by_cases h : k2 = k
    · simp [h]
    · simp only [h, if_false]
      simp only [List.map_cons, ih]
      by_cases h2 : (jget k r).isSome
      · simp [h2]
      · simp [h2]

theorem nodup_keys_pyDictSet (k : String) (v : J) (d : List (String × J))
    (hnd : (d.map Prod.fst).Nodup) : ((pyDictSet k v d).map Prod.fst).Nodup := by
  rw [map_fst_pyDictSet]
  by_cases h : (jget k d).isSome
  · simp [h, hnd]
  · simp only [h, if_false]
    have hnm : k ∉ d.map Prod.fst := by
      rw [← jget_none_iff]
      cases hj : jget k d
      · rfl
      · rw [hj] at h
        simp at h
    simp [List.nodup_append, hnd, hnm]

theorem jget_append_of_ne (k v : String) (cl : List (String × J)) (e : J)
    (h : k ≠ v) : jget k (cl ++ [(v, e)]) = jget k cl := by
  have hvk : ¬ v = k := fun he => h he.symm
  induction cl with
  | nil => simp [jget, hvk]
  | cons p r ih =>
    obtain ⟨k2, w⟩ := p
    simp only [List.cons_append]
    unfold jget
    by_cases h2 : k2 = k
    · simp [h2]
    · simp [h2, ih]

theorem jget_append_self (v : String) (cl : List (String × J)) (e : J)
    (h : jget v cl = none) : jget v (cl ++ [(v, e)]) = some e := by
  induction cl with
  | nil => simp [jget]
  | cons p r ih =>
    obtain ⟨k2, w⟩ := p
    unfold jget at h
    simp only [List.cons_append]
    unfold jget
    by_cases h2 : k2 = v
    · simp [h2] at h
    · simp only [h2, if_false] at h ⊢
      exact ih h

theorem tupLt_asymm (a b : List Nat) (h : tupLt a b = true) : tupLt b a = false := by
  induction a generalizing b with
  | nil =>
    cases b with
    | nil => simp [tupLt] at h
    | cons y bs => simp [tupLt]
  | cons x as ih =>
    cases b with
    | nil => simp [tupLt] at h
    | cons y bs =>
      unfold tupLt at h ⊢
      by_cases h1 : x < y
      · have h2 : ¬ y < x := by omega
        simp [h1, h2]
      · simp only [h1, if_false] at h
        by_cases h2 : y < x
        · simp [h2] at h
        · simp only [h2, if_false] at h
          simp [h1, h2, ih bs h]

theorem tupLt_false_trans (a b c : List Nat) (h1 : tupLt a b = false)
    (h2 : tupLt b c = false) : tupLt a c = false := by
  induction a generalizing b c with
  | nil =>
    cases b with
    | nil =>
      cases c with
      | nil => rfl
      | cons z cs => simp [tupLt] at h2
    | cons y bs => simp [tupLt] at h1
  | cons x as ih =>
    cases b with
    | nil =>
      cases c with
      | nil => simp [tupLt]
      | cons z cs => simp [tupLt] at h2
    | cons y bs =>
      cases c with
      | nil => simp [tupLt]
      | cons z cs =>
        unfold tupLt at h1 h2 ⊢
        by_cases hxy : x < y
        · simp [hxy] at h1
        · by_cases hyz : y < z
          · simp [hyz] at h2
          · simp only [hxy, if_false] at h1
            simp only [hyz, if_false] at h2
            by_cases hyx : y < x
            · have hxz : ¬ x < z := by omega
              have hzx : z < x := by omega
              simp [hxz, hzx]
            · by_cases hzy : z < y
              · have hxz : ¬ x < z := by omega
                have hzx : z < x := by omega
                simp [hxz, hzx]
              · have hxz : ¬ x < z := by omega
                have hzx : ¬ z < x := by omega
                simp only [hyx, if_false] at h1
                simp only [hzy, if_false] at h2
                simp [hxz, hzx, ih bs cs h1 h2]

theorem insertDesc_perm (key : String × J → List Nat) (x : String × J)
    (l : List (String × J)) : (insertDesc key x l).Perm (x :: l) := by
  induction l with
  | nil => exact List.Perm.refl _
  | cons y ys ih =>
    unfold insertDesc
    by_cases h : tupLt (key x) (key y) = true
    · simp only [h, if_true]
      exact List.Perm.trans (List.Perm.cons y ih) (List.Perm.swap x y ys)
    · simp only [h, if_false]
      exact List.Perm.refl _

theorem sortDesc_perm (key : String × J → List Nat) (l : List (String × J)) :
    (sortDesc key l).Perm l := by
  induction l with
  | nil => exact List.Perm.refl _
  | cons x xs ih =>
    unfold sortDesc
    exact List.Perm.trans (insertDesc_perm key x (sortDesc key xs))
      (List.Perm.cons x ih)

theorem insertDesc_pairwise (key : String × J → List Nat) (x : String × J)
    (l : List (String × J))
    (hl : l.Pairwise (fun a b => tupLt (key a) (key b) = false)) :
    (insertDesc key x l).Pairwise (fun a b => tupLt (key a) (key b) = false) := by
  induction l with
  | nil => simp [insertDesc]
  | cons y ys ih =>
    rcases List.pairwise_cons.1 hl with ⟨hy, hys⟩
    unfold insertDesc
    by_cases h : tupLt (key x) (key y) = true
    · simp only [h, if_true]
      refine List.pairwise_cons.2 ⟨?_, ih hys⟩
      intro z hz
      have hz' := (insertDesc_perm key x ys).mem_iff.1 hz
      rcases List.mem_cons.1 hz' with rfl | hz2
      · exact tupLt_asymm _ _ h
      · exact hy z hz2
    · simp only [h, if_false]
      have hxy : tupLt (key x) (key y) = false := by
        cases hb : tupLt (key x) (key y)
        · rfl
        · exact absurd hb h
      refine List.pairwise_cons.2 ⟨?_, hl⟩
      intro z hz
      rcases List.mem_cons.1 hz with rfl | hz2
      · exact hxy
      · exact tupLt_false_trans _ _ _ hxy (hy z hz2)

theorem sortDesc_pairwise (key : String × J → List Nat) (l : List (String × J)) :
    (sortDesc key l).Pairwise (fun a b => tupLt (key a) (key b) = false) := by
  induction l with
  | nil => simp [sortDesc]
  | cons x xs ih =>
    unfold sortDesc
    exact insertDesc_pairwise key x _ ih

theorem all_pyDictSet (Q : String → Bool) (k : String) (v : J)
    (d : List (String × J)) (hall : d.all (fun p => Q p.1) = true)
    (hk : Q k = true) :
    (pyDictSet k v d).all (fun p => Q p.1) = true := by
  induction d with
  | nil => simp [pyDictSet, hk]
  | cons p r ih =>
    obtain ⟨k2, w⟩ := p
    simp only [List.all_cons, Bool.and_eq_true] at hall
    unfold pyDictSet
    by_cases h : k2 = k
    · simp [h, hall.2, hk]
    · simp [h, hall.1, ih hall.2]

theorem sort_changelog_ok (cl : List (String × J))
    (h : cl.all (fun p => (version_key_opt p.1).isSome) = true) :
    _sort_changelog cl = .ok (sortDesc (fun p => version_keyD p.1) cl) := by
  unfold _sort_changelog
  rw [h]
  rfl

theorem update_run (today v : String) (doc cl : List (String × J))
    (hcl : jget "changelog" doc = some (J.o cl))
    (hkeys : cl.all (fun p => (version_key_opt p.1).isSome) = true)
    (hv : (version_key_opt v).isSome = true)
    (hbr : jget v cl = none ∨ ∃ e, jget v cl = some (J.o e)) :
    ∃ cl1 : List (String × J),
      ((jget v cl = none → cl1 = cl ++ [(v, newEntry today)]) ∧
       (∀ e, jget v cl = some (J.o e) →
          cl1 = pyDictSet v (J.o (_ensure_changelog_structure today e)) cl)) ∧
      cl1.all (fun p => (version_key_opt p.1).isSome) = true ∧
      _update_version_json today v doc =
        .ok (pyDictSet "changelog"
              (J.o (sortDesc (fun p => version_keyD p.1) cl1))
              (pyDictSet "version" (J.s v) doc)) := by
  have hcl1 : jget "changelog" (pyDictSet "version" (J.s v) doc) = some (J.o cl) := by
    rw [jget_pyDictSet_other _ _ _ _ (by decide)]
    exact hcl
  have hck : containsKey "changelog" (pyDictSet "version" (J.s v) doc) = true := by
    unfold containsKey
    rw [hcl1]
    rfl
  rcases hbr with hnone | ⟨e, hsome⟩
  · refine ⟨cl ++ [(v, newEntry today)], ⟨fun _ => rfl, ?_⟩, ?_, ?_⟩
    · intro e he
      rw [hnone] at he
      cases he
    · rw [List.all_append]
      simp [hkeys, hv]
    · have hckv : containsKey v cl = false := by
        unfold containsKey
        rw [hnone]
        rfl
      unfold _update_version_json
      simp only [hcl1, hck, hckv, if_true, Bool.false_eq_true, if_false]
      rw [sort_changelog_ok _ (by rw [List.all_append]; simp [hkeys, hv])]
  · refine ⟨pyDictSet v (J.o (_ensure_changelog_structure today e)) cl, ⟨?_, ?_⟩, ?_, ?_⟩
    · intro hn
      rw [hn] at hsome
      cases hsome
    · intro e2 he2
      rw [hsome] at he2
      injection he2 with he3
      injection he3 with he4
      rw [he4]
    · exact all_pyDictSet (fun s => (version_key_opt s).isSome) v _ cl hkeys hv
    · have hckv : containsKey v cl = true := by
        unfold containsKey
        rw [hsome]
        rfl
      unfold _update_version_json
      simp only [hcl1, hck, hckv, if_true, hsome]
      rw [sort_changelog_ok _
        (all_pyDictSet (fun s => (version_key_opt s).isSome) v _ cl hkeys hv)]

theorem backfill_pres (k0 : String) (val : J) (ch : List (String × J))
    (k : String) (w : J) (h : jget k ch = some w) :
    jget k (if containsKey k0 ch then ch else pyDictSet k0 val ch) = some w := by
  by_cases hc : containsKey k0 ch = true
  · rw [if_pos hc]
    exact h
  · rw [if_neg hc]
    have hk : k ≠ k0 := by
      intro he
      subst he
      unfold containsKey at hc
      rw [h] at hc
      simp at hc
    rw [jget_pyDictSet_other k0 k val ch hk]
    exact h

theorem backfill_other (k0 : String) (val : J) (ch : List (String × J))
    (k : String) (hk : k ≠ k0) :
    jget k (if containsKey k0 ch then ch else pyDictSet k0 val ch) = jget k ch := by
  by_cases hc : containsKey k0 ch = true
  · rw [if_pos hc]
  · rw [if_neg hc]
    exact jget_pyDictSet_other k0 k val ch hk

theorem backfill_hit (k0 : String) (val : J) (ch : List (String × J))
    (h : jget k0 ch = none) :
    jget k0 (if containsKey k0 ch then ch else pyDictSet k0 val ch) = some val := by
  have hc : ¬ containsKey k0 ch = true := by
    unfold containsKey
    rw [h]
    simp
  rw [if_neg hc]
  exact jget_pyDictSet_same k0 val ch

theorem ensure_changes (today : String) (e ch : List (String × J))
    (hch : jget "changes" e = some (J.o ch)) :
    ∃ CH : List (String × J),
      _ensure_changelog_structure today e =
        pyDictSet "changes" (J.o CH)
          (if containsKey "date" e then e else pyDictSet "date" (J.s today) e) ∧
      (∀ k w, jget k ch = some w → jget k CH = some w) ∧
      (∀ k, k ≠ "zh" → k ≠ "en" → jget k CH = jget k ch) ∧
      (jget "zh" ch = none → jget "zh" CH = some (J.a [])) ∧
      (jget "en" ch = none → jget "en" CH = some (J.a [])) := by
  have h1 : jget "changes"
      (if containsKey "date" e then e else pyDictSet "date" (J.s today) e) =
      some (J.o ch) := by
    by_cases hd : containsKey "date" e = true
    · rw [if_pos hd]
      exact hch
    · rw [if_neg hd]
      rw [jget_pyDictSet_other "date" "changes" _ _ (by decide)]
      exact hch
  refine ⟨if containsKey "en"
            (if containsKey "zh" ch then ch else pyDictSet "zh" (J.a []) ch) then
            (if containsKey "zh" ch then ch else pyDictSet "zh" (J.a []) ch)
          else pyDictSet "en" (J.a [])
            (if containsKey "zh" ch then ch else pyDictSet "zh" (J.a []) ch),
      ?_, ?_, ?_, ?_, ?_⟩
  · simp only [_ensure_changelog_structure, h1]
  · intro k w hw
    exact backfill_pres "en" (J.a []) _ k w (backfill_pres "zh" (J.a []) ch k w hw)
  · intro k hzh hen
    rw [backfill_other "en" (J.a []) _ k hen]
    exact backfill_other "zh" (J.a []) ch k hzh
  · intro h0
    exact backfill_pres "en" (J.a []) _ "zh" (J.a [])
      (backfill_hit "zh" (J.a []) ch h0)
  · intro h0
    have h2 : jget "en"
        (if containsKey "zh" ch then ch else pyDictSet "zh" (J.a []) ch) = none := by
      rw [backfill_other "zh" (J.a []) ch "en" (by decide)]
      exact h0
    exact backfill_hit "en" (J.a []) _ h2

/-- C6: after every set-version update on a well-formed document (changelog
is a dict of dict entries with valid dotted-numeric keys, the new version
key valid), the stored changelog is sorted descending by the numeric
version tuple `tuple(map(int, key.split('.')))`: no later entry has a
strictly larger key, and the order is numeric, not lexicographic on
strings — `"1.10.0"` sorts above `"1.9.0"` because `tupLt` compares
component integers, independent of string length. -/
theorem claim_C6 (today v : String) (doc cl : List (String × J))
    (hcl : jget "changelog" doc = some (J.o cl))
    (hkeys : cl.all (fun p => (version_key_opt p.1).isSome) = true)
    (hv : (version_key_opt v).isSome = true)
    (hbr : jget v cl = none ∨ ∃ e, jget v cl = some (J.o e)) :
    ∃ out cls : List (String × J),
      _update_version_json today v doc = .ok out ∧
      jget "changelog" out = some (J.o cls) ∧
      cls.Pairwise
        (fun a b => tupLt (version_keyD a.1) (version_keyD b.1) = false) ∧
      tupLt (version_keyD "1.9.0") (version_keyD "1.10.0") = true := by
  obtain ⟨cl1, hbranch, hall1, hrun⟩ := update_run today v doc cl hcl hkeys hv hbr
  refine ⟨_, sortDesc (fun p => version_keyD p.1) cl1, hrun,
    jget_pyDictSet_same _ _ _, ?_, by rfl⟩
  exact sortDesc_pairwise (fun p => version_keyD p.1) cl1

/-- Witness for C6: a concrete document whose changelog holds `1.9.0`,
updated to version `1.10.0`. -/
theorem claim_C6_witness :
    ∃ out cls : List (String × J),
      _update_version_json "2026-10-12" "1.10.0"
        [("version", J.s "1.0.0"),
         ("changelog", J.o [("1.9.0",
            J.o [("date", J.s "2025-01-01"),
                 ("changes", J.o [("zh", J.a []), ("en", J.a [])])])])] =
        .ok out ∧
      jget "changelog" out = some (J.o cls) ∧
      cls.Pairwise
        (fun a b => tupLt (version_keyD a.1) (version_keyD b.1) = false) ∧
      tupLt (version_keyD "1.9.0") (version_keyD "1.10.0") = true :=
  claim_C6 "2026-10-12" "1.10.0"
    [("version", J.s "1.0.0"),
     ("changelog", J.o [("1.9.0",
        J.o [("date", J.s "2025-01-01"),
             ("changes", J.o [("zh", J.a []), ("en", J.a [])])])])]
    [("1.9.0", J.o [("date", J.s "2025-01-01"),
        ("changes", J.o [("zh", J.a []), ("en", J.a [])])])]
    (by rfl) (by rfl) (by rfl) (Or.inl (by rfl))

/-- C7: setting a version `v` that already exists in the changelog (its
entry a dict whose `changes` field is a dict) preserves the entry's
existing date and every recorded change list verbatim, and only backfills
a missing date with the current date and a missing `zh`/`en` list with an
empty list; every other field of the entry is untouched. -/
theorem claim_C7 (today v : String) (doc cl e ch : List (String × J))
    (hnd : (cl.map Prod.fst).Nodup)
    (hcl : jget "changelog" doc = some (J.o cl))
    (hkeys : cl.all (fun p => (version_key_opt p.1).isSome) = true)
    (hv : (version_key_opt v).isSome = true)
    (he : jget v cl = some (J.o e))
    (hch : jget "changes" e = some (J.o ch)) :
    ∃ out cls E CH : List (String × J),
      _update_version_json today v doc = .ok out ∧
      jget "changelog" out = some (J.o cls) ∧
      jget v cls = some (J.o E) ∧
      jget "changes" E = some (J.o CH) ∧
      (∀ k, k ≠ "changes" → k ≠ "date" → jget k E = jget k e) ∧
      (∀ d, jget "date" e = some d → jget "date" E = some d) ∧
      (jget "date" e = none → jget "date" E = some (J.s today)) ∧
      (∀ k w, jget k ch = some w → jget k CH = some w) ∧
      (∀ k, k ≠ "zh" → k ≠ "en" → jget k CH = jget k ch) ∧
      (jget "zh" ch = none → jget "zh" CH = some (J.a [])) ∧
      (jget "en" ch = none → jget "en" CH = some (J.a [])) := by
  obtain ⟨cl1, ⟨hb1, hb2⟩, hall1, hrun⟩ :=
    update_run today v doc cl hcl hkeys hv (Or.inr ⟨e, he⟩)
  obtain ⟨CH, hE, hpres, hoth, hzh, hen⟩ := ensure_changes today e ch hch
  have hcl1e : cl1 = pyDictSet v (J.o (_ensure_changelog_structure today e)) cl :=
    hb2 e he
  have hnd1 : (cl1.map Prod.fst).Nodup := by
    rw [hcl1e]
    exact nodup_keys_pyDictSet v _ cl hnd
  have hjeq := jget_eq_of_perm v cl1 _
    (sortDesc_perm (fun p => version_keyD p.1) cl1).symm hnd1
  refine ⟨_, sortDesc (fun p => version_keyD p.1) cl1,
    _ensure_changelog_structure today e, CH, hrun,
    jget_pyDictSet_same _ _ _, ?_, ?_, ?_, ?_, ?_, hpres, hoth, hzh, hen⟩
  · rw [← hjeq, hcl1e]
    exact jget_pyDictSet_same _ _ _
  · rw [hE]
    exact jget_pyDictSet_same _ _ _
  · intro k hkc hkd
    rw [hE, jget_pyDictSet_other "changes" k _ _ hkc]
    exact backfill_other "date" (J.s today) e k hkd
  · intro d hd
    rw [hE, jget_pyDictSet_other "changes" "date" _ _ (by decide)]
    exact backfill_pres "date" (J.s today) e "date" d hd
  · intro hd
    rw [hE, jget_pyDictSet_other "changes" "date" _ _ (by decide)]
    exact backfill_hit "date" (J.s today) e hd

/-- Witness for C7: updating to existing version `1.2.3` whose entry lacks
a date and an `en` list but records a `zh` change. -/
theorem claim_C7_witness :
    ∃ out cls E CH : List (String × J),
      _update_version_json "2026-10-12" "1.2.3"
        [("version", J.s "1.0.0"),
         ("changelog", J.o
           [("1.2.3", J.o [("changes", J.o [("zh", J.a [J.s "x"])])]),
            ("0.9.0", J.o [("date", J.s "2024-01-01"),
               ("changes", J.o [("zh", J.a []), ("en", J.a [])])])])] =
        .ok out ∧
      jget "changelog" out = some (J.o cls) ∧
      jget "1.2.3" cls = some (J.o E) ∧
      jget "changes" E = some (J.o CH) ∧
      (∀ k, k ≠ "changes" → k ≠ "date" →
        jget k E = jget k [("changes", J.o [("zh", J.a [J.s "x"])])]) ∧
      (∀ d, jget "date" [("changes", J.o [("zh", J.a [J.s "x"])])] = some d →
        jget "date" E = some d) ∧
      (jget "date" [("changes", J.o [("zh", J.a [J.s "x"])])] = none →
        jget "date" E = some (J.s "2026-10-12")) ∧
      (∀ k w, jget k [("zh", J.a [J.s "x"])] = some w → jget k CH = some w) ∧
      (∀ k, k ≠ "zh" → k ≠ "en" → jget k CH = jget k [("zh", J.a [J.s "x"])]) ∧
      (jget "zh" [("zh", J.a [J.s "x"])] = none → jget "zh" CH = some (J.a [])) ∧
      (jget "en" [("zh", J.a [J.s "x"])] = none → jget "en" CH = some (J.a [])) :=
  claim_C7 "2026-10-12" "1.2.3"
    [("version", J.s "1.0.0"),
     ("changelog", J.o
       [("1.2.3", J.o [("changes", J.o [("zh", J.a [J.s "x"])])]),
        ("0.9.0", J.o [("date", J.s "2024-01-01"),
           ("changes", J.o [("zh", J.a []), ("en", J.a [])])])])]
    [("1.2.3", J.o [("changes", J.o [("zh", J.a [J.s "x"])])]),
     ("0.9.0", J.o [("date", J.s "2024-01-01"),
        ("changes", J.o [("zh", J.a []), ("en", J.a [])])])]
    [("changes", J.o [("zh", J.a [J.s "x"])])]
    [("zh", J.a [J.s "x"])]
    (by decide) (by rfl) (by rfl) (by rfl) (by rfl) (by rfl)

/-- C10: frame property of `_update_version_json` on a well-formed
document: the changelog entry of every key other than `v` keeps its exact
value, no entry is removed, and every top-level field other than `version`
and `changelog` is unchanged; apart from the descending reorder, only the
`version` field and the entry for `v` are modified. -/
theorem claim_C10 (today v : String) (doc cl : List (String × J))
    (hnd : (cl.map Prod.fst).Nodup)
    (hcl : jget "changelog" doc = some (J.o cl))
    (hkeys : cl.all (fun p => (version_key_opt p.1).isSome) = true)
    (hv : (version_key_opt v).isSome = true)
    (hbr : jget v cl = none ∨ ∃ e, jget v cl = some (J.o e)) :
    ∃ out cls : List (String × J),
      _update_version_json today v doc = .ok out ∧
      jget "version" out = some (J.s v) ∧
      jget "changelog" out = some (J.o cls) ∧
      (∀ k, k ≠ v → jget k cls = jget k cl) ∧
      (∀ k, containsKey k cl = true → containsKey k cls = true) ∧
      (∀ k, k ≠ "version" → k ≠ "changelog" → jget k out = jget k doc) := by
  obtain ⟨cl1, ⟨hb1, hb2⟩, hall1, hrun⟩ := update_run today v doc cl hcl hkeys hv hbr
  have hsplit : (∀ k, k ≠ v → jget k cl1 = jget k cl) ∧
      (jget v cl1).isSome = true ∧ (cl1.map Prod.fst).Nodup := by
    rcases hbr with hnone | ⟨e, hsome⟩
    · rw [hb1 hnone]
      refine ⟨fun k hk => jget_append_of_ne k v cl _ hk, ?_, ?_⟩
      · rw [jget_append_self v cl _ hnone]
        rfl
      · have hnm : v ∉ cl.map Prod.fst := (jget_none_iff v cl).1 hnone
        simp [List.nodup_append, hnd, hnm]
    · rw [hb2 e hsome]
      refine ⟨fun k hk => jget_pyDictSet_other v k _ cl hk, ?_,
        nodup_keys_pyDictSet v _ cl hnd⟩
      rw [jget_pyDictSet_same]
      rfl
  obtain ⟨hoth1, hvsome, hnd1⟩ := hsplit
  have hjeq : ∀ k, jget k cl1 =
      jget k (sortDesc (fun p => version_keyD p.1) cl1) :=
    fun k => jget_eq_of_perm k cl1 _
      (sortDesc_perm (fun p => version_keyD p.1) cl1).symm hnd1
  refine ⟨_, sortDesc (fun p => version_keyD p.1) cl1, hrun, ?_,
    jget_pyDictSet_same _ _ _, ?_, ?_, ?_⟩
  · rw [jget_pyDictSet_other "changelog" "version" _ _ (by decide)]
    exact jget_pyDictSet_same _ _ _
  · intro k hk
    rw [← hjeq k]
    exact hoth1 k hk
  · intro k hck
    by_cases hk : k = v
    · subst hk
      unfold containsKey
      rw [← hjeq k]
      exact hvsome
    · unfold containsKey at hck ⊢
      rw [← hjeq k, hoth1 k hk]
      exact hck
  · intro k hkv hkc
    rw [jget_pyDictSet_other "changelog" k _ _ hkc,
        jget_pyDictSet_other "version" k _ _ hkv]

/-- Witness for C10: adding new version `2.0.0` to a document with an
extra top-level `name` field and an existing `1.0.0` entry. -/
theorem claim_C10_witness :
    ∃ out cls : List (String × J),
      _update_version_json "2026-10-12" "2.0.0"
        [("version", J.s "1.0.0"), ("name", J.s "STR"),
         ("changelog", J.o [("1.0.0",
            J.o [("date", J.s "2024-05-05"),
                 ("changes", J.o [("zh", J.a []), ("en", J.a [])])])])] =
        .ok out ∧
      jget "version" out = some (J.s "2.0.0") ∧
      jget "changelog" out = some (J.o cls) ∧
      (∀ k, k ≠ "2.0.0" → jget k cls =
        jget k [("1.0.0", J.o [("date", J.s "2024-05-05"),
           ("changes", J.o [("zh", J.a []), ("en", J.a [])])])]) ∧
      (∀ k, containsKey k [("1.0.0", J.o [("date", J.s "2024-05-05"),
           ("changes", J.o [("zh", J.a []), ("en", J.a [])])])] = true →
        containsKey k cls = true) ∧
      (∀ k, k ≠ "version" → k ≠ "changelog" → jget k out =
        jget k [("version", J.s "1.0.0"), ("name", J.s "STR"),
         ("changelog", J.o [("1.0.0",
            J.o [("date", J.s "2024-05-05"),
                 ("changes", J.o [("zh", J.a []), ("en", J.a [])])])])]) :=
  claim_C10 "2026-10-12" "2.0.0"
    [("version", J.s "1.0.0"), ("name", J.s "STR"),
     ("changelog", J.o [("1.0.0",
        J.o [("date", J.s "2024-05-05"),
             ("changes", J.o [("zh", J.a []), ("en", J.a [])])])])]
    [("1.0.0", J.o [("date", J.s "2024-05-05"),
        ("changes", J.o [("zh", J.a []), ("en", J.a [])])])]
    (by decide) (by rfl) (by rfl) (by rfl) (Or.inl (by rfl))
end STR
